import Mathlib

/-!
Verification of the call-graph + slicing analyzer
(`analyzer/src/lib/CallGraph.cc`, `Slicing.cc`, `KAMain.cc`) against its
natural-language specification.  The C++ sources are shallowly embedded:
LLVM types, functions, call sites and the process-wide registry become
plain Lean data; every analysis routine becomes an executable Lean
function translated line by line from the corresponding C++ function.
-/

namespace Analyzer

/-- Shallow embedding of the LLVM `Type` hierarchy, restricted to the
constructors `CallGraphPass::isCompatibleType` inspects: pointers (with
pointee type and address-space number), arrays, integers (with bit
width), structs (literal flag, name, element types), function types
(return type, parameter types, vararg flag), and all remaining types,
which `isCompatibleType` compares only through `getTypeID` and which we
collapse into `other` carrying the type id. -/
inductive LType : Type where
  | ptr (pointee : LType) (addrSpace : Nat)
  | arr (elem : LType)
  | int (width : Nat)
  | strukt (literal : Bool) (sname : String) (elems : List LType)
  | func (ret : LType) (params : List LType) (varArg : Bool)
  | other (tid : Nat)
deriving Repr

/-- `Type::isIntegerTy(8)`: the type is an integer type of bit width 8. -/
def LType.isIntegerTy8 : LType → Bool
  | .int 8 => true
  | _ => false

/-- `Type::getTypeID`, as far as `isCompatibleType`'s final `else`
branch can observe it: the five structured constructors have five
distinct ids and every `other` type carries its own id. -/
def LType.typeID : LType → Nat
  | .ptr _ _ => 0
  | .arr _ => 1
  | .int _ => 2
  | .strukt _ _ _ => 3
  | .func _ _ _ => 4
  | .other tid => 5 + tid

mutual

/-- `CallGraphPass::isCompatibleType` (CallGraph.cc:40-144), translated
branch by branch.  Note the array branch: the C++ source recurses with
`isCompatibleType(ElT1, ElT1)` — the first element type on both sides —
exactly as written at CallGraph.cc:66. -/
def isCompatibleType : LType → LType → Bool
  | .ptr elT1 _, t2 =>
    match t2 with
    | .ptr elT2 _ =>
      -- assume "void *" and "char *" are equivalent to any pointer type
      if elT1.isIntegerTy8 then true
      else isCompatibleType elT1 elT2
    | _ => false
  | .arr elT1, t2 =>
    match t2 with
    | .arr _ => isCompatibleType elT1 elT1
    | _ => false
  | .int w, t2 =>
    match t2 with
    -- assume pointer can be casted to the address space size
    | .ptr _ addrSpace => w = addrSpace
    -- assume all integer types are compatible
    | .int _ => true
    | _ => false
  | .strukt lit1 n1 els1, t2 =>
    match t2 with
    | .strukt lit2 n2 els2 =>
      -- literal has to be equal
      if lit1 ≠ lit2 then false
      -- literal, compare content: element count, then elementwise
      else if lit1 then compatList els1 els2
      -- not literal, use name
      else n1 = n2
    | _ => false
  | .func ret1 params1 varArg1, t2 =>
    match t2 with
    | .func ret2 params2 varArg2 =>
      if !isCompatibleType ret1 ret2 then false
      else if varArg1 then varArg2
      else compatList params1 params2
    | _ => false
  | t1@(.other _), t2 => t1.typeID = t2.typeID

/-- Pairwise compatibility of two type lists: equal length and
elementwise `isCompatibleType` — the shape of both the literal-struct
element loop and the function parameter loop in the C++ source. -/
def compatList : List LType → List LType → Bool
  | [], [] => true
  | t1 :: ts1, t2 :: ts2 => isCompatibleType t1 t2 && compatList ts1 ts2
  | _, _ => false

end

example : isCompatibleType (.int 3) (.int 77) = true := by decide
example : isCompatibleType (.int 64) (.ptr (.other 0) 64) = true := by decide
example : isCompatibleType (.int 32) (.ptr (.other 0) 64) = false := by decide
example : isCompatibleType (.ptr (.int 8) 0) (.ptr (.other 9) 0) = true := by decide
example : isCompatibleType (.ptr (.other 9) 0) (.ptr (.int 8) 0) = false := by decide
example : isCompatibleType (.arr (.int 8)) (.arr (.other 3)) = true := by decide
example : isCompatibleType (.int 8) (.other 3) = false := by decide

/-- The attributes of an `llvm::Function` that the call-graph pass reads:
identity (`fid`), scope name (`Annotation.h`'s `getScopeName`), enclosing
section (`none` when `hasSection()` is false), return type, formal
parameter types, vararg flag, `isIntrinsic()`, and `hasAddressTaken()`. -/
structure FSig where
  fid : Nat
  scopeName : String
  sec : Option String
  retTy : LType
  paramTys : List LType
  varArg : Bool
  intrinsic : Bool
  addrTaken : Bool

/-- A call-like instruction (`llvm::CallBase`): identity (`sid`), the
called operand when it is a `Function` (`none` for an indirect call),
the inline-asm flag, whether the instruction is a `DbgInfoIntrinsic`,
the call's result type (`CB->getType()`), and the actual argument
types. -/
structure Site where
  sid : Nat
  callee : Option FSig
  inlineAsm : Bool
  dbg : Bool
  retTy : LType
  argTys : List LType

/-- A function together with its body, reduced to the sequence of its
call-like instructions in instruction order (the only instructions the
TYPE_BASED call-graph pass inspects). -/
structure LFunc where
  sig : FSig
  body : List Site

/-- `Ctx->Funcs`: the scope-name → definition registry populated by
`doBasicInitialization` (KAMain.cc:143-166), abstracted as a lookup
from scope names to the registered definition's function id. -/
abbrev Reg := String → Option Nat

/-- `CallGraphPass::getFuncDef` (CallGraph.cc:30-37): return the
registered definition for the function's scope name if one exists,
otherwise the function itself. -/
def getFuncDef (reg : Reg) (F : FSig) : Nat :=
  match reg F.scopeName with
  | some g => g
  | none => F.fid

/-- The section test `F->hasSection() && F->getSection().str() ==
".init.text"` used at CallGraph.cc:412 and CallGraph.cc:576. -/
def inInitText (F : FSig) : Bool :=
  F.sec = some ".init.text"

/-- `CallGraphPass::doInitialization` (CallGraph.cc:565-584), restricted
to the `AddressTakenFuncs` collection: every function that is not in
`.init.text` and has its address taken is inserted.  The
`processInitializers` walk populates only `Ctx->FuncPtrs`, which the
TYPE_BASED pipeline never reads, so it is not modelled. -/
def doInitialization (funcs : List LFunc) : List FSig :=
  (funcs.filter (fun F => !inInitText F.sig && F.sig.addrTaken)).map (·.sig)

/-- The formal/actual parameter loop of `findCalleesByType`
(CallGraph.cc:166-180): walk the formal parameters in lockstep with the
actual arguments and require `isCompatibleType` on each pair.  When the
formals outnumber the actuals (possible only for a variadic candidate)
the C++ loop reads past the end of the argument list, which is
undefined; the embedding makes the missing pairs unconstrained, i.e. it
checks exactly the pairs that exist. -/
def paramsMatched : List LType → List LType → Bool
  | [], _ => true
  | f :: fs, a :: az => isCompatibleType f a && paramsMatched fs az
  | _ :: _, [] => true

/-- `CallGraphPass::findCalleesByType` (CallGraph.cc:147-189): iterate
over `AddressTakenFuncs`; skip a candidate that is non-variadic with a
different arity, skip a non-variadic candidate with an incompatible
return type (variadic candidates bypass both checks), skip intrinsics,
and insert the candidate when every formal/actual pair is compatible.
The C++ function always returns `false`; its insertions never report a
change. -/
def findCalleesByType (atf : List FSig) (S : Site) (FS : Finset Nat) : Finset Nat :=
  atf.foldl (fun fs F =>
    if !F.varArg && F.paramTys.length ≠ S.argTys.length then fs
    else if !F.varArg && !isCompatibleType F.retTy S.retTy then fs
    else if F.intrinsic then fs
    else if paramsMatched F.paramTys S.argTys then insert F.fid fs
    else fs) FS

/-- `CB->getCalledFunction() && CB->getCalledFunction()->isIntrinsic()`
(CallGraph.cc:425). -/
def calleeIntrinsic (S : Site) : Bool :=
  match S.callee with
  | some cf => cf.intrinsic
  | none => false

/-- `CallGraphPass::findCallees` (CallGraph.cc:375-395): a direct call
inserts the definition of the called function; an indirect call is
resolved by type matching (TYPE_BASED is defined).  The
`IndirectCallInsts` bookkeeping list is unused by the pipeline and not
modelled. -/
def findCallees (reg : Reg) (atf : List FSig) (S : Site) (FS : Finset Nat) : Finset Nat :=
  match S.callee with
  | some cf => insert (getFuncDef reg cf) FS
  | none => findCalleesByType atf S FS

/-- `Ctx->Callees` / `Ctx->Callers` viewed through membership: a map
from ids to the associated id set, absent keys reading as the empty
set. -/
abbrev IdSetMap := Nat → Finset Nat

/-- The instruction loop of `CallGraphPass::runOnFunction`
(CallGraph.cc:417-482): for each call-like instruction that is neither
inline asm nor a direct intrinsic call, grow `Callees[CB]` through
`findCallees`. -/
def runBody (reg : Reg) (atf : List FSig) (sites : List Site) (cal : IdSetMap) : IdSetMap :=
  sites.foldl (fun c S =>
    if S.inlineAsm || calleeIntrinsic S then c
    else Function.update c S.sid (findCallees reg atf S (c S.sid))) cal

/-- `CallGraphPass::runOnFunction` (CallGraph.cc:408-485).  Functions in
`.init.text` are skipped.  The returned `Changed` flag is the local
variable of the C++ function: with TYPE_BASED defined it is never
assigned after its `false` initialisation (the `findCallees` result
only guards code that is compiled out), so the function always reports
`false`. -/
def runOnFunction (reg : Reg) (atf : List FSig) (F : LFunc) (cal : IdSetMap) :
    IdSetMap × Bool :=
  if inInitText F.sig then (cal, false)
  else (runBody reg atf F.body cal, false)

/-- One sweep of the `doModulePass` loop body (CallGraph.cc:623-625):
run `runOnFunction` over every function, OR-ing the reported flags. -/
def doModulePassSweep (reg : Reg) (atf : List FSig) (funcs : List LFunc)
    (cal : IdSetMap) : IdSetMap × Bool :=
  funcs.foldl (fun p F =>
    let r := runOnFunction reg atf F p.1
    (r.1, p.2 || r.2)) (cal, false)

/-- The `while (Changed)` loop of `CallGraphPass::doModulePass`
(CallGraph.cc:619-630), with explicit fuel bounding the number of
sweeps.  The second component counts the sweeps actually executed: a
sweep reporting a change costs one unit of fuel and loops, a quiet
sweep ends the loop. -/
def doModulePassLoop (reg : Reg) (atf : List FSig) (funcs : List LFunc) :
    Nat → IdSetMap → IdSetMap × Nat
  | 0, cal => (cal, 0)
  | fuel + 1, cal =>
    let s := doModulePassSweep reg atf funcs cal
    if s.2 then
      let r := doModulePassLoop reg atf funcs fuel s.1
      (r.1, r.2 + 1)
    else (s.1, 1)

/-- The per-callee insertion loop of `doFinalization`
(CallGraph.cc:596-611): skip `DbgInfoIntrinsic` call sites, then insert
the site into `Callers[CF]` for every `CF ∈ Callees[CB]`. -/
def finalizeSite (cal : IdSetMap) (S : Site) (car : IdSetMap) : IdSetMap :=
  if S.dbg then car
  else fun f => if f ∈ cal S.sid then insert S.sid (car f) else car f

/-- `CallGraphPass::doFinalization` (CallGraph.cc:587-616): iterate over
every instruction of every function (no `.init.text` filter here) and
invert the finished `Callees` map into `Callers`. -/
def doFinalization (funcs : List LFunc) (cal : IdSetMap) (car : IdSetMap) : IdSetMap :=
  funcs.foldl (fun c F => F.body.foldl (fun c2 S => finalizeSite cal S c2) c) car

/-- The result of the call-graph phase: `AddressTakenFuncs`, `Callees`,
`Callers`. -/
structure CGResult where
  atf : List FSig
  callees : IdSetMap
  callers : IdSetMap

/-- `IterativeModulePass::run` (KAMain.cc:88-141) specialised to
`CallGraphPass`, with the program's modules flattened into one function
list (modules are processed in load order and all maps are global, so
the flattening preserves the processing order).  `doInitialization` and
`doFinalization` both always return `false`, so their driver loops
execute them exactly once; the `doModulePass` fuel `funcs.length + 1`
is more than the loop can consume (each sweep after the first requires
the previous one to have reported a change). -/
def runCallGraph (reg : Reg) (funcs : List LFunc) : CGResult :=
  let atf := doInitialization funcs
  let cal := (doModulePassLoop reg atf funcs (funcs.length + 1) (fun _ => ∅)).1
  let car := doFinalization funcs cal (fun _ => ∅)
  ⟨atf, cal, car⟩

/-- The condition under which `findCalleesByType` inserts a candidate,
read off the chain of `continue`s: a variadic candidate bypasses the
arity and return-type checks, intrinsics are skipped, and every
existing formal/actual pair must be compatible. -/
def typeMatched (F : FSig) (S : Site) : Bool :=
  (F.varArg || (F.paramTys.length == S.argTys.length && isCompatibleType F.retTy S.retTy))
    && !F.intrinsic && paramsMatched F.paramTys S.argTys

theorem findCalleesByType_step (S : Site) (F : FSig) (fs : Finset Nat) :
    (if !F.varArg && F.paramTys.length ≠ S.argTys.length then fs
     else if !F.varArg && !isCompatibleType F.retTy S.retTy then fs
     else if F.intrinsic then fs
     else if paramsMatched F.paramTys S.argTys then insert F.fid fs
     else fs)
      = if typeMatched F S then insert F.fid fs else fs := by
  by_cases hv : F.varArg = true <;>
    by_cases hi : F.intrinsic = true <;>
      by_cases hp : paramsMatched F.paramTys S.argTys = true <;>
        by_cases hl : F.paramTys.length = S.argTys.length <;>
          by_cases hr : isCompatibleType F.retTy S.retTy = true <;>
            simp [typeMatched, hv, hi, hp, hl, hr]

theorem foldl_insert_mem {α : Type} (l : List α) (p : α → Bool) (g : α → Nat)
    (FS : Finset Nat) (f : Nat) :
    (f ∈ l.foldl (fun fs a => if p a then insert (g a) fs else fs) FS) ↔
      f ∈ FS ∨ ∃ a ∈ l, p a = true ∧ g a = f := by
  induction l generalizing FS with
  | nil => simp
  | cons b t ih =>
    simp only [List.foldl_cons]
    rw [ih]
    by_cases hb : p b = true
    · simp only [hb, if_true, Finset.mem_insert, List.mem_cons]
      constructor
      · rintro (h | h)
        · rcases h with rfl | h
          · exact Or.inr ⟨b, Or.inl rfl, hb, rfl⟩
          · exact Or.inl h
        · rcases h with ⟨a, ha, hpa, hga⟩
          exact Or.inr ⟨a, Or.inr ha, hpa, hga⟩
      · rintro (h | ⟨a, ha, hpa, hga⟩)
        · exact Or.inl (Or.inr h)
        · rcases ha with rfl | ha
          · exact Or.inl (Or.inl hga.symm)
          · exact Or.inr ⟨a, ha, hpa, hga⟩
    · have hb2 : p b = false := by simpa using hb
      simp only [hb2, Bool.false_eq_true, if_false, List.mem_cons]
      constructor
      · rintro (h | ⟨a, ha, hpa, hga⟩)
        · exact Or.inl h
        · exact Or.inr ⟨a, Or.inr ha, hpa, hga⟩
      · rintro (h | ⟨a, ha, hpa, hga⟩)
        · exact Or.inl h
        · rcases ha with rfl | ha
          · rw [hpa] at hb2; cases hb2
          · exact Or.inr ⟨a, ha, hpa, hga⟩

/-- Membership characterisation of `findCalleesByType`. -/
theorem mem_findCalleesByType (atf : List FSig) (S : Site) (FS : Finset Nat) (f : Nat) :
    f ∈ findCalleesByType atf S FS ↔
      f ∈ FS ∨ ∃ F ∈ atf, typeMatched F S = true ∧ F.fid = f := by
  have h : findCalleesByType atf S FS
      = atf.foldl (fun fs F => if typeMatched F S then insert F.fid fs else fs) FS := by
    simp only [findCalleesByType]
    congr 1
    funext fs F
    exact findCalleesByType_step S F fs
  rw [h, foldl_insert_mem]

/-- Shorthand: the site is skipped by the instruction loop of
`runOnFunction` (inline asm, or a direct call to an intrinsic). -/
def skippedSite (S : Site) : Bool :=
  S.inlineAsm || calleeIntrinsic S

theorem runBody_cons (reg : Reg) (atf : List FSig) (S : Site) (t : List Site)
    (cal : IdSetMap) :
    runBody reg atf (S :: t) cal =
      runBody reg atf t
        (if skippedSite S then cal
         else Function.update cal S.sid (findCallees reg atf S (cal S.sid))) := by
  simp only [runBody, List.foldl_cons, skippedSite]

theorem runBody_sid_ne (reg : Reg) (atf : List FSig) (sites : List Site)
    (cal : IdSetMap) (k : Nat) (h : ∀ S ∈ sites, S.sid ≠ k) :
    runBody reg atf sites cal k = cal k := by
  induction sites generalizing cal with
  | nil => rfl
  | cons S t ih =>
    rw [runBody_cons]
    rw [ih _ (fun T hT => h T (List.mem_cons_of_mem S hT))]
    by_cases hs : skippedSite S = true
    · simp [hs]
    · have hs2 : skippedSite S = false := by simpa using hs
      simp only [hs2, Bool.false_eq_true, if_false]
      exact Function.update_noteq (fun hk => h S (List.mem_cons_self S t) hk.symm) _ cal

theorem runBody_mem_eq (reg : Reg) (atf : List FSig) (sites : List Site)
    (cal : IdSetMap) (S : Site) (hS : S ∈ sites)
    (hnd : (sites.map Site.sid).Nodup) (hsk : skippedSite S = false) :
    runBody reg atf sites cal S.sid = findCallees reg atf S (cal S.sid) := by
  induction sites generalizing cal with
  | nil => cases hS
  | cons T t ih =>
    simp only [List.map_cons, List.nodup_cons, List.mem_map] at hnd
    rcases List.mem_cons.mp hS with rfl | hmem
    · rw [runBody_cons]
      simp only [hsk, Bool.false_eq_true, if_false]
      have hrest : ∀ T2 ∈ t, T2.sid ≠ S.sid := by
        intro T2 hT2 he
        exact hnd.1 ⟨T2, hT2, he⟩
      rw [runBody_sid_ne reg atf t _ S.sid hrest, Function.update_same]
    · rw [runBody_cons]
      by_cases hs : skippedSite T = true
      · simp only [hs, if_true]
        exact ih cal hmem hnd.2
      · have hs2 : skippedSite T = false := by simpa using hs
        simp only [hs2, Bool.false_eq_true, if_false]
        have hne : T.sid ≠ S.sid := fun he => hnd.1 ⟨S, hmem, he.symm⟩
        rw [ih _ hmem hnd.2, Function.update_noteq (fun h2 => hne h2.symm)]

theorem runBody_mem_exists (reg : Reg) (atf : List FSig) (sites : List Site)
    (cal : IdSetMap) (k f : Nat) (h : f ∈ runBody reg atf sites cal k) :
    f ∈ cal k ∨ ∃ S ∈ sites, S.sid = k ∧ skippedSite S = false := by
  induction sites generalizing cal with
  | nil => exact Or.inl h
  | cons S t ih =>
    rw [runBody_cons] at h
    by_cases hs : skippedSite S = true
    · simp only [hs, if_true] at h
      rcases ih _ h with h1 | ⟨T, hT, hk, hsk⟩
      · exact Or.inl h1
      · exact Or.inr ⟨T, List.mem_cons_of_mem S hT, hk, hsk⟩
    · have hs2 : skippedSite S = false := by simpa using hs
      simp only [hs2, Bool.false_eq_true, if_false] at h
      rcases ih _ h with h1 | ⟨T, hT, hk, hsk⟩
      · by_cases hk : S.sid = k
        · exact Or.inr ⟨S, List.mem_cons_self S t, hk, hs2⟩
        · rw [Function.update_noteq (fun h2 => hk h2.symm)] at h1
          exact Or.inl h1
      · exact Or.inr ⟨T, List.mem_cons_of_mem S hT, hk, hsk⟩

/-- The effect of one `doModulePass` sweep on the `Callees` map,
forgetting the (constant `false`) change flag. -/
def sweepCal (reg : Reg) (atf : List FSig) (funcs : List LFunc) (cal : IdSetMap) :
    IdSetMap :=
  funcs.foldl (fun c F => if inInitText F.sig then c else runBody reg atf F.body c) cal

theorem doModulePassSweep_aux (reg : Reg) (atf : List FSig) (funcs : List LFunc) :
    ∀ (cal : IdSetMap) (b : Bool),
      funcs.foldl (fun p F =>
        let r := runOnFunction reg atf F p.1
        (r.1, p.2 || r.2)) (cal, b) = (sweepCal reg atf funcs cal, b) := by
  induction funcs with
  | nil => intro cal b; rfl
  | cons F t ih =>
    intro cal b
    simp only [List.foldl_cons, runOnFunction, sweepCal]
    by_cases hF : inInitText F.sig = true
    · simpa [hF] using ih cal b
    · have hF2 : inInitText F.sig = false := by simpa using hF
      simpa [hF2] using ih (runBody reg atf F.body cal) b

/-- A sweep never reports a change: with TYPE_BASED defined,
`runOnFunction` always returns `false`. -/
theorem doModulePassSweep_eq (reg : Reg) (atf : List FSig) (funcs : List LFunc)
    (cal : IdSetMap) :
    doModulePassSweep reg atf funcs cal = (sweepCal reg atf funcs cal, false) :=
  doModulePassSweep_aux reg atf funcs cal false

/-- With any remaining fuel the `doModulePass` loop executes exactly one
sweep: the first sweep reports no change, so the loop exits. -/
theorem doModulePassLoop_succ (reg : Reg) (atf : List FSig) (funcs : List LFunc)
    (fuel : Nat) (cal : IdSetMap) :
    doModulePassLoop reg atf funcs (fuel + 1) cal = (sweepCal reg atf funcs cal, 1) := by
  simp [doModulePassLoop, doModulePassSweep_eq]

theorem runCallGraph_atf (reg : Reg) (funcs : List LFunc) :
    (runCallGraph reg funcs).atf = doInitialization funcs := rfl

theorem runCallGraph_callees (reg : Reg) (funcs : List LFunc) :
    (runCallGraph reg funcs).callees
      = sweepCal reg (doInitialization funcs) funcs (fun _ => ∅) := by
  simp [runCallGraph, doModulePassLoop_succ]

theorem runCallGraph_callers (reg : Reg) (funcs : List LFunc) :
    (runCallGraph reg funcs).callers
      = doFinalization funcs (runCallGraph reg funcs).callees (fun _ => ∅) := by
  simp [runCallGraph, doModulePassLoop_succ]

/-- All site ids of the program, flattened across functions. -/
def allSids (funcs : List LFunc) : List Nat :=
  (funcs.flatMap LFunc.body).map Site.sid

theorem sweepCal_cons (reg : Reg) (atf : List FSig) (F : LFunc) (t : List LFunc)
    (cal : IdSetMap) :
    sweepCal reg atf (F :: t) cal
      = sweepCal reg atf t (if inInitText F.sig then cal else runBody reg atf F.body cal) := by
  simp only [sweepCal, List.foldl_cons]

theorem sweepCal_sid_ne (reg : Reg) (atf : List FSig) (funcs : List LFunc)
    (cal : IdSetMap) (k : Nat)
    (h : ∀ F ∈ funcs, inInitText F.sig = false → ∀ S ∈ F.body, S.sid ≠ k) :
    sweepCal reg atf funcs cal k = cal k := by
  induction funcs generalizing cal with
  | nil => rfl
  | cons F t ih =>
    rw [sweepCal_cons]
    rw [ih _ (fun G hG hGi S hS => h G (List.mem_cons_of_mem F hG) hGi S hS)]
    by_cases hF : inInitText F.sig = true
    · simp [hF]
    · have hF2 : inInitText F.sig = false := by simpa using hF
      simp only [hF2, Bool.false_eq_true, if_false]
      exact runBody_sid_ne reg atf F.body cal k
        (fun S hS => h F (List.mem_cons_self F t) hF2 S hS)

theorem sweepCal_mem_eq (reg : Reg) (atf : List FSig) (funcs : List LFunc)
    (cal : IdSetMap) (F : LFunc) (S : Site)
    (hnd : (allSids funcs).Nodup) (hF : F ∈ funcs) (hinit : inInitText F.sig = false)
    (hS : S ∈ F.body) (hsk : skippedSite S = false) :
    sweepCal reg atf funcs cal S.sid = findCallees reg atf S (cal S.sid) := by
  induction funcs generalizing cal with
  | nil => cases hF
  | cons G t ih =>
    have hsplit : allSids (G :: t) = G.body.map Site.sid ++ allSids t := by
      simp [allSids, List.flatMap_cons]
    rw [hsplit] at hnd
    have hndG := hnd.of_append_left
    have hndt := hnd.of_append_right
    have hdisj := List.disjoint_of_nodup_append hnd
    rcases List.mem_cons.mp hF with rfl | hmem
    · rw [sweepCal_cons]
      simp only [hinit, Bool.false_eq_true, if_false]
      have h1 := runBody_mem_eq reg atf F.body cal S hS hndG hsk
      have h2 : ∀ G2 ∈ t, inInitText G2.sig = false → ∀ S2 ∈ G2.body, S2.sid ≠ S.sid := by
        intro G2 hG2 _ S2 hS2 he
        exact hdisj (List.mem_map_of_mem Site.sid hS)
          (by
            rw [← he]
            exact List.mem_map_of_mem Site.sid (List.mem_flatMap_of_mem hG2 hS2))
      rw [sweepCal_sid_ne reg atf t _ S.sid h2, h1]
    · rw [sweepCal_cons]
      have hGne : ∀ S2 ∈ G.body, S2.sid ≠ S.sid := by
        intro S2 hS2 he
        exact hdisj (by rw [← he]; exact List.mem_map_of_mem Site.sid hS2)
          (List.mem_map_of_mem Site.sid (List.mem_flatMap_of_mem hmem hS))
      have hbase :
          (if inInitText G.sig then cal else runBody reg atf G.body cal) S.sid
            = cal S.sid := by
        by_cases hG : inInitText G.sig = true
        · simp [hG]
        · have hG2 : inInitText G.sig = false := by simpa using hG
          simp only [hG2, Bool.false_eq_true, if_false]
          exact runBody_sid_ne reg atf G.body cal S.sid hGne
      rw [ih _ hndt hmem, hbase]

theorem sweepCal_mem_exists (reg : Reg) (atf : List FSig) (funcs : List LFunc)
    (cal : IdSetMap) (k f : Nat) (h : f ∈ sweepCal reg atf funcs cal k) :
    f ∈ cal k ∨ ∃ F ∈ funcs, inInitText F.sig = false ∧
      ∃ S ∈ F.body, S.sid = k ∧ skippedSite S = false := by
  induction funcs generalizing cal with
  | nil => exact Or.inl h
  | cons G t ih =>
    rw [sweepCal_cons] at h
    rcases ih _ h with h1 | ⟨F, hF, hi, S, hS, hk, hsk⟩
    · by_cases hG : inInitText G.sig = true
      · simp only [hG, if_true] at h1
        exact Or.inl h1
      · have hG2 : inInitText G.sig = false := by simpa using hG
        simp only [hG2, Bool.false_eq_true, if_false] at h1
        rcases runBody_mem_exists reg atf G.body cal k f h1 with h2 | ⟨S, hS, hk, hsk⟩
        · exact Or.inl h2
        · exact Or.inr ⟨G, List.mem_cons_self G t, hG2, S, hS, hk, hsk⟩
    · exact Or.inr ⟨F, List.mem_cons_of_mem G hF, hi, S, hS, hk, hsk⟩

/-- A site inside a `.init.text` function is never processed by the
sweep: its `Callees` entry keeps its previous value. -/
theorem sweepCal_initText_ne (reg : Reg) (atf : List FSig) (funcs : List LFunc)
    (cal : IdSetMap) (F : LFunc) (S : Site)
    (hnd : (allSids funcs).Nodup) (hF : F ∈ funcs)
    (hin : inInitText F.sig = true) (hS : S ∈ F.body) :
    sweepCal reg atf funcs cal S.sid = cal S.sid := by
  induction funcs generalizing cal with
  | nil => cases hF
  | cons G t ih =>
    have hsplit : allSids (G :: t) = G.body.map Site.sid ++ allSids t := by
      simp [allSids, List.flatMap_cons]
    rw [hsplit] at hnd
    have hndt := hnd.of_append_right
    have hdisj := List.disjoint_of_nodup_append hnd
    rcases List.mem_cons.mp hF with rfl | hmem
    · rw [sweepCal_cons]
      simp only [hin, if_true]
      refine sweepCal_sid_ne reg atf t cal S.sid ?_
      intro G2 hG2 _ S2 hS2 he
      exact hdisj (List.mem_map_of_mem Site.sid hS)
        (by
          rw [← he]
          exact List.mem_map_of_mem Site.sid (List.mem_flatMap_of_mem hG2 hS2))
    · rw [sweepCal_cons]
      have hGne : ∀ S2 ∈ G.body, S2.sid ≠ S.sid := by
        intro S2 hS2 he
        exact hdisj (by rw [← he]; exact List.mem_map_of_mem Site.sid hS2)
          (List.mem_map_of_mem Site.sid (List.mem_flatMap_of_mem hmem hS))
      have hbase :
          (if inInitText G.sig then cal else runBody reg atf G.body cal) S.sid
            = cal S.sid := by
        by_cases hG : inInitText G.sig = true
        · simp [hG]
        · have hG2 : inInitText G.sig = false := by simpa using hG
          simp only [hG2, Bool.false_eq_true, if_false]
          exact runBody_sid_ne reg atf G.body cal S.sid hGne
      rw [ih _ hndt hmem, hbase]

/-- Under unique site ids, two program sites with the same id are the
same site. -/
theorem site_unique (funcs : List LFunc) (hnd : (allSids funcs).Nodup)
    {F G : LFunc} {S T : Site} (hF : F ∈ funcs) (hS : S ∈ F.body)
    (hG : G ∈ funcs) (hT : T ∈ G.body) (he : S.sid = T.sid) : S = T :=
  List.inj_on_of_nodup_map hnd
    (List.mem_flatMap_of_mem hF hS) (List.mem_flatMap_of_mem hG hT) he

/-- The site loop of `doFinalization`, over a flat site list. -/
def finSites (cal : IdSetMap) (sites : List Site) (car : IdSetMap) : IdSetMap :=
  sites.foldl (fun c S => finalizeSite cal S c) car

theorem doFinalization_eq_finSites (funcs : List LFunc) (cal car : IdSetMap) :
    doFinalization funcs cal car = finSites cal (funcs.flatMap LFunc.body) car := by
  induction funcs generalizing car with
  | nil => rfl
  | cons F t ih =>
    simp only [doFinalization, List.foldl_cons, List.flatMap_cons, finSites,
      List.foldl_append] at *
    exact ih _

theorem finSites_subset (cal : IdSetMap) (sites : List Site) (car : IdSetMap)
    (f s : Nat) (h : s ∈ car f) : s ∈ finSites cal sites car f := by
  induction sites generalizing car with
  | nil => exact h
  | cons S t ih =>
    simp only [finSites, List.foldl_cons] at *
    apply ih
    simp only [finalizeSite]
    by_cases hd : S.dbg = true
    · simpa [hd] using h
    · have hd2 : S.dbg = false := by simpa using hd
      simp only [hd2, Bool.false_eq_true, if_false]
      by_cases hf : f ∈ cal S.sid
      · simp [hf, Finset.mem_insert, h]
      · simp [hf, h]

theorem finSites_mem (cal : IdSetMap) (sites : List Site) (car : IdSetMap)
    (f : Nat) (S : Site) (hS : S ∈ sites) (hd : S.dbg = false)
    (hf : f ∈ cal S.sid) : S.sid ∈ finSites cal sites car f := by
  induction sites generalizing car with
  | nil => cases hS
  | cons T t ih =>
    simp only [finSites, List.foldl_cons]
    rcases List.mem_cons.mp hS with rfl | hmem
    · apply finSites_subset
      simp only [finalizeSite, hd, Bool.false_eq_true, if_false, hf, if_true]
      exact Finset.mem_insert_self _ _
    · exact ih _ hmem

theorem finSites_sound (cal : IdSetMap) (sites : List Site) (car : IdSetMap)
    (f s : Nat) (h : s ∈ finSites cal sites car f) :
    s ∈ car f ∨ f ∈ cal s := by
  induction sites generalizing car with
  | nil => exact Or.inl h
  | cons S t ih =>
    simp only [finSites, List.foldl_cons] at h
    rcases ih _ h with h1 | h1
    · simp only [finalizeSite] at h1
      by_cases hd : S.dbg = true
      · rw [if_pos hd] at h1
        exact Or.inl h1
      · have hd2 : S.dbg = false := by simpa using hd
        rw [hd2] at h1
        simp only [Bool.false_eq_true, if_false] at h1
        by_cases hf : f ∈ cal S.sid
        · rw [if_pos hf] at h1
          rcases Finset.mem_insert.mp h1 with rfl | h2
          · exact Or.inr hf
          · exact Or.inl h2
        · rw [if_neg hf] at h1
          exact Or.inl h1
    · exact Or.inr h1

/-- The callee condition of claim C1 exactly as the specification words
it (§4.C.1): membership in `AddressTakenFuncs`, not an intrinsic,
variadic or arity-equal, return type compatible — required for every
candidate, variadic or not — and all formal/actual pairs compatible.
Written from the specification text, for comparison with the
source-derived `findCalleesByType`. -/
def specC1Cond (atf : List FSig) (S : Site) (G : FSig) : Prop :=
  G ∈ atf ∧ G.intrinsic = false ∧
    (G.varArg = true ∨ G.paramTys.length = S.argTys.length) ∧
    isCompatibleType G.retTy S.retTy = true ∧
    paramsMatched G.paramTys S.argTys = true

/-- C1 (amended): for an indirect, non-inline-asm call site S of a
non-`.init.text` function, after the call-graph phase a function id f is
in `Callees[S]` iff some address-taken candidate G carries it and G is
not an intrinsic, G is variadic — in which case both the arity check and
the return-type check are bypassed — or has matching arity and a
compatible return type, and every existing (formal, actual) parameter
type pair is compatible.  (The original claim required return-type
compatibility unconditionally; the source skips it for variadic
candidates.) -/
theorem claim_C1 (reg : Reg) (funcs : List LFunc) (F0 : LFunc) (S : Site) (f : Nat)
    (hnd : (allSids funcs).Nodup) (hF0 : F0 ∈ funcs) (hS : S ∈ F0.body)
    (hinit : inInitText F0.sig = false) (hind : S.callee = none)
    (hasm : S.inlineAsm = false) :
    f ∈ (runCallGraph reg funcs).callees S.sid ↔
      ∃ G ∈ (runCallGraph reg funcs).atf, G.fid = f ∧ G.intrinsic = false ∧
        (G.varArg = true ∨ (G.paramTys.length = S.argTys.length ∧
          isCompatibleType G.retTy S.retTy = true)) ∧
        paramsMatched G.paramTys S.argTys = true := by
  rw [runCallGraph_callees, runCallGraph_atf]
  have hsk : skippedSite S = false := by
    simp [skippedSite, hasm, calleeIntrinsic, hind]
  rw [sweepCal_mem_eq reg _ funcs _ F0 S hnd hF0 hinit hS hsk]
  have hfc : findCallees reg (doInitialization funcs) S ((fun _ => (∅ : Finset Nat)) S.sid)
      = findCalleesByType (doInitialization funcs) S ∅ := by
    simp [findCallees, hind]
  rw [hfc, mem_findCalleesByType]
  simp only [Finset.not_mem_empty, false_or]
  constructor
  · rintro ⟨G, hG, htm, rfl⟩
    simp only [typeMatched, Bool.and_eq_true, Bool.or_eq_true, Bool.not_eq_true',
      beq_iff_eq] at htm
    exact ⟨G, hG, rfl, htm.1.2, htm.1.1, htm.2⟩
  · rintro ⟨G, hG, hfid, hintr, hdisj, hparams⟩
    refine ⟨G, hG, ?_, hfid⟩
    simp only [typeMatched, Bool.and_eq_true, Bool.or_eq_true, Bool.not_eq_true',
      beq_iff_eq]
    exact ⟨⟨hdisj, hintr⟩, hparams⟩

def c1gSig : FSig := ⟨1, "g", none, .int 32, [.int 32], false, false, true⟩

def c1site : Site := ⟨10, none, false, false, .int 32, [.int 32]⟩

def c1f : LFunc := ⟨⟨0, "f", none, .other 0, [], false, false, false⟩, [c1site]⟩

def c1prog : List LFunc := [c1f, ⟨c1gSig, []⟩]

/-- Witness for C1: in a concrete two-function program with one indirect
call site, the amended characterisation yields the expected callee. -/
theorem claim_C1_witness :
    1 ∈ (runCallGraph (fun _ => none) c1prog).callees 10 := by
  have hatf : (runCallGraph (fun _ => none) c1prog).atf = [c1gSig] := rfl
  exact (claim_C1 (fun _ => none) c1prog c1f c1site 1 (by decide)
      (List.mem_cons_self _ _) (List.mem_cons_self _ _) (by decide) rfl rfl).mpr
    ⟨c1gSig, by rw [hatf]; exact List.mem_cons_self _ _, rfl, rfl,
      Or.inr ⟨rfl, by decide⟩, by decide⟩

def c1vSig : FSig := ⟨2, "v", none, .other 0, [], true, false, true⟩

def c1xsite : Site := ⟨20, none, false, false, .other 1, []⟩

def c1xprog : List LFunc :=
  [⟨⟨3, "h", none, .other 0, [], false, false, false⟩, [c1xsite]⟩, ⟨c1vSig, []⟩]

/-- Counterexample to C1 as stated: the candidate `v` is variadic with a
return type incompatible with the call's result type; the source still
inserts it into `Callees` because the return-type check is inside the
non-variadic branch, while the claim's condition rejects it. -/
theorem claim_C1_counterexample :
    ¬ (c1vSig.fid ∈ (runCallGraph (fun _ => none) c1xprog).callees c1xsite.sid ↔
        specC1Cond (runCallGraph (fun _ => none) c1xprog).atf c1xsite c1vSig) := by
  intro hiff
  have hmem : c1vSig.fid ∈ (runCallGraph (fun _ => none) c1xprog).callees c1xsite.sid := by
    decide
  exact absurd (hiff.mp hmem).2.2.2.1 (by decide)

/-- C2: after finalization, `Callees` and `Callers` are mutual inverses.
The hypothesis states the well-formedness fact (true of LLVM IR) that a
`DbgInfoIntrinsic` call site is a direct call to an intrinsic
function — exactly the sites `runOnFunction` already skips. -/
theorem claim_C2 (reg : Reg) (funcs : List LFunc)
    (hdbg : ∀ F ∈ funcs, ∀ S ∈ F.body, S.dbg = true → calleeIntrinsic S = true)
    (s f : Nat) :
    s ∈ (runCallGraph reg funcs).callers f ↔ f ∈ (runCallGraph reg funcs).callees s := by
  rw [runCallGraph_callers, doFinalization_eq_finSites]
  constructor
  · intro h
    rcases finSites_sound _ _ _ f s h with h1 | h1
    · simp at h1
    · exact h1
  · intro h
    have h2 := h
    rw [runCallGraph_callees] at h2
    rcases sweepCal_mem_exists _ _ _ _ _ _ h2 with h3 | ⟨F, hF, _, S, hS, hsid, hsk⟩
    · simp at h3
    · subst hsid
      have hdbgS : S.dbg = false := by
        rcases Bool.eq_false_or_eq_true S.dbg with hd | hd
        · have hc := hdbg F hF S hS hd
          simp [skippedSite, hc] at hsk
        · exact hd
      exact finSites_mem _ _ _ f S (List.mem_flatMap_of_mem hF hS) hdbgS h

def c2gSig : FSig := ⟨1, "g", none, .other 0, [], false, false, false⟩

def c2prog : List LFunc :=
  [⟨⟨0, "f", none, .other 0, [], false, false, false⟩,
      [⟨10, some c2gSig, false, false, .other 0, []⟩]⟩,
    ⟨c2gSig, []⟩]

/-- Witness for C2 on a concrete direct-call program. -/
theorem claim_C2_witness :
    10 ∈ (runCallGraph (fun _ => none) c2prog).callers 1 :=
  (claim_C2 (fun _ => none) c2prog (by decide) 10 1).mpr (by decide)

/-- C3 (code bug): the claim — and the source's own comment — say two
array types are compatible iff their element types are, but
CallGraph.cc:66 calls `isCompatibleType(ElT1, ElT1)`, comparing the
first array's element type with itself.  At the failing input
`[i8]` vs `[float-like]` the code reports compatible although the
element types are not. -/
theorem claim_C3 :
    isCompatibleType (.arr (.int 8)) (.arr (.other 3)) = true ∧
      isCompatibleType (.int 8) (.other 3) = false := by decide

/-- C4 (amended): in TYPE_BASED mode `runOnFunction` never reports a
change (`findCalleesByType` always returns `false`, and the result of
`findCallees` only guards compiled-out code), so every sweep reports
`false` and `doModulePass` performs exactly one sweep no matter how
many insertions that sweep performs. -/
theorem claim_C4 (reg : Reg) (atf : List FSig) (funcs : List LFunc) (fuel : Nat)
    (cal : IdSetMap) :
    (doModulePassSweep reg atf funcs cal).2 = false ∧
      doModulePassLoop reg atf funcs (fuel + 1) cal = (sweepCal reg atf funcs cal, 1) :=
  ⟨by rw [doModulePassSweep_eq], doModulePassLoop_succ reg atf funcs fuel cal⟩

def c4gSig : FSig := ⟨1, "g", none, .other 0, [], false, false, false⟩

def c4prog : List LFunc :=
  [⟨⟨0, "f", none, .other 0, [], false, false, false⟩,
      [⟨10, some c4gSig, false, false, .other 0, []⟩]⟩]

/-- Counterexample to C4 as stated: in this one-function program the
first sweep grows `Callees[10]` from `∅` to `{1}`, yet the loop still
executes exactly one sweep — growth does not trigger a re-run, because
no insertion ever sets the `Changed` flag. -/
theorem claim_C4_counterexample :
    ¬ (((doModulePassSweep (fun _ => none) (doInitialization c4prog) c4prog
            (fun _ => ∅)).1 10 ≠ ((fun _ => ∅ : IdSetMap)) 10) →
        2 ≤ (doModulePassLoop (fun _ => none) (doInitialization c4prog) c4prog 8
            (fun _ => ∅)).2) := by
  decide

/-- C5 (amended): `.init.text` functions are excluded from the analysis
as callers and as indirect-call candidates: no `AddressTakenFuncs`
entry is in `.init.text`, the call sites inside a `.init.text` function
never acquire a `Callees` entry, and an indirect site only ever resolves
to address-taken (hence non-`.init.text`) candidates.  (The original
claim also forbade `.init.text` functions from appearing inside
`Callees` sets altogether, but a direct call from a normal function
still inserts its `.init.text` callee.) -/
theorem claim_C5 (reg : Reg) (funcs : List LFunc) (F : LFunc)
    (hnd : (allSids funcs).Nodup) (hF : F ∈ funcs) (hin : inInitText F.sig = true) :
    (∀ G ∈ (runCallGraph reg funcs).atf, inInitText G = false) ∧
      (∀ S ∈ F.body, (runCallGraph reg funcs).callees S.sid = ∅) ∧
      (∀ G ∈ funcs, ∀ S ∈ G.body, S.callee = none →
        ∀ f ∈ (runCallGraph reg funcs).callees S.sid,
          ∃ H ∈ (runCallGraph reg funcs).atf, H.fid = f) := by
  refine ⟨?_, ?_, ?_⟩
  · intro G hG
    rw [runCallGraph_atf, doInitialization] at hG
    rcases List.mem_map.mp hG with ⟨F2, hF2, rfl⟩
    have h2 := (List.mem_filter.mp hF2).2
    simp only [Bool.and_eq_true, Bool.not_eq_true'] at h2
    exact h2.1
  · intro S hS
    rw [runCallGraph_callees, sweepCal_initText_ne reg _ funcs _ F S hnd hF hin hS]
  · intro G hG S hS hcal f hf
    have h2 := hf
    rw [runCallGraph_callees] at h2
    rcases sweepCal_mem_exists _ _ _ _ _ _ h2 with h3 | ⟨F2, hF2, hi2, S2, hS2, hsid, hsk2⟩
    · simp at h3
    · have hSS : S2 = S := site_unique funcs hnd hF2 hS2 hG hS hsid
      rw [hSS] at hS2 hsk2
      rw [runCallGraph_callees,
        sweepCal_mem_eq reg _ funcs _ F2 S hnd hF2 hi2 hS2 hsk2] at hf
      have hfc : findCallees reg (doInitialization funcs) S
          ((fun _ => (∅ : Finset Nat)) S.sid)
          = findCalleesByType (doInitialization funcs) S ∅ := by
        simp [findCallees, hcal]
      rw [hfc, mem_findCalleesByType] at hf
      rcases hf with h4 | ⟨H, hH, _, rfl⟩
      · simp at h4
      · exact ⟨H, by rw [runCallGraph_atf]; exact hH, rfl⟩

def c5initSig : FSig := ⟨1, "ginit", some ".init.text", .other 0, [], false, false, false⟩

def c5init : LFunc := ⟨c5initSig, [⟨11, none, false, false, .other 0, []⟩]⟩

def c5prog : List LFunc := [c5init]

/-- Witness for C5 on a concrete program with a `.init.text` function
containing one indirect call site. -/
theorem claim_C5_witness :
    (∀ G ∈ (runCallGraph (fun _ => none) c5prog).atf, inInitText G = false) ∧
      (∀ S ∈ c5init.body, (runCallGraph (fun _ => none) c5prog).callees S.sid = ∅) ∧
      (∀ G ∈ c5prog, ∀ S ∈ G.body, S.callee = none →
        ∀ f ∈ (runCallGraph (fun _ => none) c5prog).callees S.sid,
          ∃ H ∈ (runCallGraph (fun _ => none) c5prog).atf, H.fid = f) :=
  claim_C5 (fun _ => none) c5prog c5init (by decide) (List.mem_cons_self _ _) (by decide)

def c5xinitSig : FSig := ⟨1, "g", some ".init.text", .other 0, [], false, false, false⟩

def c5xprog : List LFunc :=
  [⟨⟨0, "f", none, .other 0, [], false, false, false⟩,
      [⟨30, some c5xinitSig, false, false, .other 0, []⟩]⟩,
    ⟨c5xinitSig, []⟩]

/-- Counterexample to C5 as stated: a normal function directly calls a
`.init.text` function, which therefore appears inside a `Callees` set
(and hence also as a key of `Callers`), contradicting "never appears in
any Callees set". -/
theorem claim_C5_counterexample :
    inInitText c5xinitSig = true ∧
      c5xinitSig.fid ∈ (runCallGraph (fun _ => none) c5xprog).callees 30 := by
  decide

/-- The `while (std::getline(ss, component, '/'))` split loop of
`normalizePath` (Slicing.cc:745-757, identically CallGraph.cc:773-785):
the fields are the maximal '/'-free runs of the input; consecutive
slashes produce empty fields, a leading slash produces one leading
empty field, and a trailing slash produces no trailing field because
`getline` fails at end of stream. -/
def splitSlash : List Char → List (List Char)
  | [] => []
  | c :: rest =>
    if c = '/' then [] :: splitSlash rest
    else
      match splitSlash rest with
      | [] => [[c]]
      | comp :: comps => (c :: comp) :: comps

/-- The component-stack update of `normalizePath`: `".."` pops the last
component (`pop_back` is guarded by non-emptiness in the C++; `dropLast`
of `[]` is `[]`, the same behaviour), `"."` and empty components are
dropped, and anything else is pushed. -/
def collapseStep (components : List (List Char)) (comp : List Char) : List (List Char) :=
  if comp = ['.', '.'] then components.dropLast
  else if comp ≠ ['.'] ∧ comp ≠ [] then components ++ [comp]
  else components

/-- The reconstruction loop `normalizedPath += comp + "/"`. -/
def joinComponents (components : List (List Char)) : List Char :=
  components.foldl (fun acc comp => acc ++ comp ++ ['/']) []

/-- The test `!pathStr.empty() && pathStr.front() == '/'`. -/
def isAbsolute : List Char → Bool
  | c :: _ => c = '/'
  | [] => false

/-- `Slicing::normalizePath` (Slicing.cc:738-771); the copy in
`CallGraphPass::normalizePath` (CallGraph.cc:766-800) is
character-for-character identical.  The final
`substr(0, size() - 1)` removes the last character (for the empty
string, `size() - 1` wraps around and `substr` returns the whole empty
string), which `dropLast` models exactly. -/
def normalizePathChars (p : List Char) : List Char :=
  let components := (splitSlash p).foldl collapseStep []
  let normalizedPath := joinComponents components
  let normalizedPath := if isAbsolute p then '/' :: normalizedPath else normalizedPath
  normalizedPath.dropLast

/-- String-level wrapper of `normalizePathChars`. -/
def normalizePath (p : String) : String :=
  ⟨normalizePathChars p.data⟩

/-- A surviving path component: nonempty, slash-free, and neither `"."`
nor `".."`. -/
def goodComp (c : List Char) : Prop :=
  c ≠ [] ∧ '/' ∉ c ∧ c ≠ ['.'] ∧ c ≠ ['.', '.']

theorem splitSlash_no_slash (p : List Char) : ∀ c ∈ splitSlash p, '/' ∉ c := by
  induction p with
  | nil => intro c hc; cases hc
  | cons a rest ih =>
    intro c hc
    simp only [splitSlash] at hc
    by_cases ha : a = '/'
    · rw [if_pos ha] at hc
      rcases List.mem_cons.mp hc with rfl | hc
      · intro h; cases h
      · exact ih c hc
    · rw [if_neg ha] at hc
      rcases hsp : splitSlash rest with _ | ⟨comp, comps⟩
      · rw [hsp] at hc
        rcases List.mem_cons.mp hc with rfl | hc
        · intro h
          rcases List.mem_singleton.mp h with rfl
          exact ha rfl
        · cases hc
      · rw [hsp] at hc
        rcases List.mem_cons.mp hc with rfl | hc
        · intro h
          rcases List.mem_cons.mp h with rfl | h
          · exact ha rfl
          · exact ih comp (by rw [hsp]; exact List.mem_cons_self _ _) h
        · exact ih c (by rw [hsp]; exact List.mem_cons_of_mem _ hc)

theorem collapseStep_nil (acc : List (List Char)) : collapseStep acc [] = acc := by
  simp [collapseStep]

theorem collapse_good (fields : List (List Char)) (acc : List (List Char))
    (hf : ∀ c ∈ fields, '/' ∉ c) (ha : ∀ c ∈ acc, goodComp c) :
    ∀ c ∈ fields.foldl collapseStep acc, goodComp c := by
  induction fields generalizing acc with
  | nil => exact ha
  | cons b t ih =>
    simp only [List.foldl_cons]
    refine ih _ (fun c hc => hf c (List.mem_cons_of_mem b hc)) ?_
    intro c hc
    simp only [collapseStep] at hc
    by_cases h1 : b = ['.', '.']
    · rw [if_pos h1] at hc
      exact ha c (List.dropLast_subset _ hc)
    · rw [if_neg h1] at hc
      by_cases h2 : b ≠ ['.'] ∧ b ≠ []
      · rw [if_pos h2] at hc
        rcases List.mem_append.mp hc with hc | hc
        · exact ha c hc
        · rcases List.mem_singleton.mp hc with rfl
          exact ⟨h2.2, hf c (List.mem_cons_self _ _), h2.1, h1⟩
      · rw [if_neg h2] at hc
        exact ha c hc

theorem joinComponents_aux (l : List (List Char)) :
    ∀ a : List Char, l.foldl (fun acc comp => acc ++ comp ++ ['/']) a
      = a ++ joinComponents l := by
  induction l with
  | nil => intro a; simp [joinComponents]
  | cons b t ih =>
    intro a
    simp only [joinComponents, List.foldl_cons, List.nil_append] at *
    rw [ih (a ++ b ++ ['/']), ih (b ++ ['/'])]
    simp [List.append_assoc]

theorem joinComponents_cons (c : List Char) (rest : List (List Char)) :
    joinComponents (c :: rest) = c ++ '/' :: joinComponents rest := by
  simp only [joinComponents, List.foldl_cons, List.nil_append]
  rw [joinComponents_aux rest (c ++ ['/'])]
  simp [joinComponents, List.append_assoc]

theorem collapse_push_all (comps : List (List Char)) (acc : List (List Char))
    (h : ∀ c ∈ comps, goodComp c) :
    comps.foldl collapseStep acc = acc ++ comps := by
  induction comps generalizing acc with
  | nil => simp
  | cons b t ih =>
    have hb := h b (List.mem_cons_self _ _)
    simp only [List.foldl_cons]
    rw [show collapseStep acc b = acc ++ [b] by
      simp [collapseStep, hb.2.2.2, hb.2.2.1, hb.1]]
    rw [ih _ (fun c hc => h c (List.mem_cons_of_mem b hc))]
    simp

theorem splitSlash_append_slash (c : List Char) (x : List Char) (h : '/' ∉ c) :
    splitSlash (c ++ '/' :: x) = c :: splitSlash x := by
  induction c with
  | nil => simp [splitSlash]
  | cons a c2 ih =>
    have ha : a ≠ '/' := by
      intro hh; exact h (hh ▸ List.mem_cons_self _ _)
    simp only [List.cons_append, splitSlash, if_neg ha, List.append_eq]
    rw [ih (fun hm => h (List.mem_cons_of_mem a hm))]

theorem splitSlash_single (c : List Char) (hne : c ≠ []) (h : '/' ∉ c) :
    splitSlash c = [c] := by
  induction c with
  | nil => cases hne rfl
  | cons a c2 ih =>
    have ha : a ≠ '/' := by
      intro hh; exact h (hh ▸ List.mem_cons_self _ _)
    simp only [splitSlash, if_neg ha]
    rcases hc2 : c2 with _ | ⟨b, t⟩
    · simp [splitSlash]
    · rw [← hc2, ih (by rw [hc2]; exact List.cons_ne_nil b t)
        (fun hm => h (List.mem_cons_of_mem a hm))]

theorem joinComponents_ne_nil (c : List Char) (rest : List (List Char)) :
    joinComponents (c :: rest) ≠ [] := by
  rw [joinComponents_cons]
  intro h
  have := congrArg List.length h
  simp at this

/-- The rendered components, minus the final slash. -/
theorem join_dropLast_cons (c : List Char) (rest : List (List Char)) :
    (joinComponents (c :: rest)).dropLast
      = c ++ (if rest = [] then ([] : List Char)
              else '/' :: (joinComponents rest).dropLast) := by
  rw [joinComponents_cons]
  rcases hr : rest with _ | ⟨d, t⟩
  · simp [joinComponents]
  · rw [List.dropLast_append_cons]
    have hne := joinComponents_ne_nil d t
    rcases hj : joinComponents (d :: t) with _ | ⟨e, s⟩
    · cases hne hj
    · simp

theorem join_dropLast_ne_nil (c : List Char) (rest : List (List Char)) (hc : c ≠ []) :
    (joinComponents (c :: rest)).dropLast ≠ [] := by
  rw [join_dropLast_cons]
  intro h
  rcases List.append_eq_nil.mp h with ⟨h1, _⟩
  exact hc h1

theorem splitSlash_join_dropLast (comps : List (List Char)) (hne : comps ≠ [])
    (h : ∀ c ∈ comps, goodComp c) :
    splitSlash ((joinComponents comps).dropLast) = comps := by
  induction comps with
  | nil => cases hne rfl
  | cons c rest ih =>
    have hc := h c (List.mem_cons_self _ _)
    rw [join_dropLast_cons]
    rcases hr : rest with _ | ⟨d, t⟩
    · simp only [if_true]
      rw [List.append_nil]
      exact splitSlash_single c hc.1 hc.2.1
    · rw [← hr]
      have hrne : rest ≠ [] := by rw [hr]; exact List.cons_ne_nil d t
      simp only [hrne, if_false]
      rw [splitSlash_append_slash c _ hc.2.1]
      rw [ih hrne (fun x hx => h x (List.mem_cons_of_mem c hx))]

theorem normalizePathChars_eq (p : List Char) :
    normalizePathChars p =
      if isAbsolute p = true ∧ (splitSlash p).foldl collapseStep [] ≠ [] then
        '/' :: (joinComponents ((splitSlash p).foldl collapseStep [])).dropLast
      else (joinComponents ((splitSlash p).foldl collapseStep [])).dropLast := by
  simp only [normalizePathChars]
  by_cases habs : isAbsolute p = true
  · rcases hcomps : (splitSlash p).foldl collapseStep [] with _ | ⟨c, rest⟩
    · simp [habs, hcomps, joinComponents]
    · have hne := joinComponents_ne_nil c rest
      rcases hj : joinComponents (c :: rest) with _ | ⟨e, s⟩
      · cases hne hj
      · simp [habs, hcomps, hj]
  · have habs2 : isAbsolute p = false := by simpa using habs
    simp [habs2]

theorem normalizePathChars_goodComps (p : List Char) :
    ∀ c ∈ (splitSlash p).foldl collapseStep [], goodComp c :=
  collapse_good (splitSlash p) [] (splitSlash_no_slash p) (fun c hc => absurd hc (by simp))

theorem join_dropLast_getLast (comps : List (List Char))
    (h : ∀ c ∈ comps, goodComp c) :
    ∀ x, ((joinComponents comps).dropLast).getLast? = some x → x ≠ '/' := by
  induction comps with
  | nil =>
    intro x hx
    simp [joinComponents] at hx
  | cons c rest ih =>
    intro x hx
    have hc := h c (List.mem_cons_self _ _)
    rw [join_dropLast_cons] at hx
    rcases hr : rest with _ | ⟨d, t⟩
    · rw [hr] at hx
      simp only [if_true, List.append_nil] at hx
      intro he
      exact hc.2.1 (he ▸ List.mem_of_getLast?_eq_some hx)
    · rw [hr] at hx
      simp only [List.cons_ne_nil, if_false] at hx
      have hd : d ≠ [] :=
        (h d (by rw [hr]; exact List.mem_cons_of_mem c (List.mem_cons_self _ _))).1
      have hD : (joinComponents (d :: t)).dropLast ≠ [] := join_dropLast_ne_nil d t hd
      rw [List.getLast?_append] at hx
      rcases hE : (joinComponents (d :: t)).dropLast with _ | ⟨e, s⟩
      · cases hD hE
      · rw [hE, List.getLast?_cons_cons] at hx
        rcases hg : (e :: s).getLast? with _ | y
        · exact absurd (List.getLast?_eq_none_iff.mp hg) (List.cons_ne_nil e s)
        · rw [hg] at hx
          have hyx : y = x := by simpa using hx
          refine ih (fun z hz => h z (List.mem_cons_of_mem c hz)) x ?_
          rw [hr, hE, hg, hyx]

theorem isAbsolute_iff (l : List Char) :
    isAbsolute l = true ↔ l.head? = some '/' := by
  rcases l with _ | ⟨c, t⟩ <;> simp [isAbsolute]

/-- If the surviving component list is nonempty and the path is not
absolute, the result starts with the first character of the first
component, which is not a slash. -/
theorem normalizePathChars_head (p : List Char) :
    (normalizePathChars p).head? = some '/' ↔
      isAbsolute p = true ∧ normalizePathChars p ≠ [] := by
  have hgood := normalizePathChars_goodComps p
  rw [normalizePathChars_eq]
  rcases hcomps : (splitSlash p).foldl collapseStep [] with _ | ⟨c, rest⟩
  · simp [joinComponents]
  · rw [hcomps] at hgood
    have hc := hgood c (List.mem_cons_self _ _)
    by_cases habs : isAbsolute p = true
    · rw [if_pos ⟨habs, List.cons_ne_nil c rest⟩]
      simp [habs]
    · rw [if_neg (fun h2 => habs h2.1)]
      rw [join_dropLast_cons]
      rcases hcc : c with _ | ⟨ch, c2⟩
      · cases hc.1 hcc
      · have hch : ch ≠ '/' := fun he =>
          hc.2.1 (by rw [hcc, he]; exact List.mem_cons_self _ _)
        simp [hch, habs]

theorem normalizePathChars_getLast (p : List Char) :
    ∀ x, (normalizePathChars p).getLast? = some x → x ≠ '/' := by
  intro x hx
  have hgood := normalizePathChars_goodComps p
  rw [normalizePathChars_eq] at hx
  rcases hcomps : (splitSlash p).foldl collapseStep [] with _ | ⟨c, rest⟩
  · rw [hcomps] at hx
    simp [joinComponents] at hx
  · rw [hcomps] at hx hgood
    have hc := hgood c (List.mem_cons_self _ _)
    by_cases habs : isAbsolute p = true
    · rw [if_pos ⟨habs, List.cons_ne_nil c rest⟩] at hx
      have hD : (joinComponents (c :: rest)).dropLast ≠ [] :=
        join_dropLast_ne_nil c rest hc.1
      rcases hE : (joinComponents (c :: rest)).dropLast with _ | ⟨e, s⟩
      · cases hD hE
      · rw [hE, List.getLast?_cons_cons] at hx
        exact join_dropLast_getLast (c :: rest) hgood x (by rw [hE]; exact hx)
    · rw [if_neg (fun h2 => habs h2.1)] at hx
      exact join_dropLast_getLast (c :: rest) hgood x hx

/-- Idempotence: re-normalizing a normalized path is the identity. -/
theorem normalizePathChars_idem (p : List Char) :
    normalizePathChars (normalizePathChars p) = normalizePathChars p := by
  have hgood := normalizePathChars_goodComps p
  rw [normalizePathChars_eq p]
  rcases hcomps : (splitSlash p).foldl collapseStep [] with _ | ⟨c, rest⟩
  · simp [joinComponents, normalizePathChars, splitSlash, isAbsolute]
  · rw [hcomps] at hgood
    have hc := hgood c (List.mem_cons_self _ _)
    have hsplit := splitSlash_join_dropLast (c :: rest) (List.cons_ne_nil c rest) hgood
    have hpush : List.foldl collapseStep [] (c :: rest) = c :: rest := by
      rw [collapse_push_all (c :: rest) [] hgood]
      simp
    by_cases habs : isAbsolute p = true
    · rw [if_pos ⟨habs, List.cons_ne_nil c rest⟩]
      rw [normalizePathChars_eq]
      have hs2 : splitSlash ('/' :: (joinComponents (c :: rest)).dropLast)
          = [] :: (c :: rest) := by
        simp [splitSlash, hsplit]
      rw [hs2]
      have hfold : List.foldl collapseStep [] ([] :: c :: rest) = c :: rest := by
        rw [List.foldl_cons, collapseStep_nil, hpush]
      rw [hfold]
      rw [if_pos ⟨by simp [isAbsolute], List.cons_ne_nil c rest⟩]
    · rw [if_neg (fun h2 => habs h2.1)]
      have hDabs : isAbsolute ((joinComponents (c :: rest)).dropLast) = false := by
        rw [join_dropLast_cons]
        rcases hcc : c with _ | ⟨ch, c2⟩
        · cases hc.1 hcc
        · have hch : ch ≠ '/' := fun he =>
            hc.2.1 (by rw [hcc, he]; exact List.mem_cons_self _ _)
          simp [isAbsolute, hch]
      rw [normalizePathChars_eq, hsplit, hpush]
      rw [if_neg (fun h2 => by rw [hDabs] at h2; cases h2.1)]

/-- C8 (amended): `normalizePath` is idempotent, resolves `.` and `..`,
collapses duplicate slashes, and its result never ends with `/`; the
result begins with `/` iff the input begins with `/` AND the normalized
result is nonempty.  (The original claim's unconditional leading-slash
preservation fails: the final `substr(0, size()-1)` also eats the lone
slash of inputs whose components all vanish, e.g. `normalize "/" = ""`.) -/
theorem claim_C8 :
    (∀ p : String, normalizePath (normalizePath p) = normalizePath p) ∧
      normalizePath "/a/./b/../c" = "/a/c" ∧
      normalizePath "a//b" = "a/b" ∧
      (∀ p : String, (normalizePath p).data.head? = some '/' ↔
        (p.data.head? = some '/' ∧ normalizePath p ≠ "")) ∧
      ∀ p : String, (normalizePath p).data.getLast? ≠ some '/' := by
  refine ⟨?_, by decide, by decide, ?_, ?_⟩
  · intro p
    exact congrArg String.mk (normalizePathChars_idem p.data)
  · intro p
    have h1 := normalizePathChars_head p.data
    have h2 := isAbsolute_iff p.data
    constructor
    · intro h
      have h3 := h1.mp h
      exact ⟨h2.mp h3.1, fun he => h3.2 (congrArg String.data he)⟩
    · rintro ⟨ha, hne⟩
      refine h1.mpr ⟨h2.mpr ha, fun he => hne ?_⟩
      exact congrArg String.mk he
  · intro p h
    exact (normalizePathChars_getLast p.data '/' h) rfl

/-- Counterexample to C8 as stated: the input `"/"` begins with `/`, but
its normalization is the empty string, which does not. -/
theorem claim_C8_counterexample :
    normalizePath "/" = "" ∧
      ¬ ((normalizePath "/").data.head? = some '/' ↔ "/".data.head? = some '/') := by
  decide

/-- The command-line inputs read by the validation block of `main`
(KAMain.cc:193-205): `--file`, `--multi`, `--line`, `--func`,
`--srcroot`, each with its `cl::init` default (`""` resp. `0`). -/
structure Args where
  file : String
  multi : String
  line : Int
  func : String
  srcroot : String

/-- The argument validation of `main` (KAMain.cc:193-205); `some c`
models an early `return c`.  The first check fires when both `--file`
and `--multi` are absent, the second when `--line`, `--func` and
`--multi` are all absent (`!TargetLine` is `TargetLine == 0`), the
third when `--srcroot` is absent. -/
def validateArgs (a : Args) : Option Int :=
  if a.file = "" ∧ a.multi = "" then some (-1)
  else if a.line = 0 ∧ a.func = "" ∧ a.multi = "" then some (-1)
  else if a.srcroot = "" then some (-1)
  else none

/-- C9 (amended): the validation enforces *presence*, not exclusive-or:
it passes iff at least one of `--file`/`--multi` is given, at least one
of `--line`/`--func`/`--multi` is given, and `--srcroot` is given; and
every validation failure exits with -1.  (Supplying both a target file
and a batch config is accepted, contrary to the claimed XOR.) -/
theorem claim_C9 (a : Args) :
    (validateArgs a = none ↔
      ((a.file ≠ "" ∨ a.multi ≠ "") ∧ (a.line ≠ 0 ∨ a.func ≠ "" ∨ a.multi ≠ "") ∧
        a.srcroot ≠ "")) ∧
      ∀ c, validateArgs a = some c → c = -1 := by
  unfold validateArgs
  by_cases h1 : a.file = "" ∧ a.multi = "" <;>
    by_cases h2 : a.line = 0 ∧ a.func = "" ∧ a.multi = "" <;>
      by_cases h3 : a.srcroot = "" <;>
        simp [h1, h2, h3] <;> tauto

/-- Counterexample to C9 as stated: both a target file and a batch
config are supplied — violating the claimed exclusive-or — together
with a source root, yet validation passes instead of exiting with -1. -/
theorem claim_C9_counterexample :
    ¬ ((("a.c" : String) ≠ "" ∧ ("batch.txt" : String) ≠ "") →
        validateArgs ⟨"a.c", "batch.txt", 0, "", "/src"⟩ = some (-1)) := by
  decide

/-- The slicing-side view of the loaded program and the finished call
graph, as `Slicing` reads them: function ids in module load order,
names, basic blocks per function, call-like instructions per block (in
instruction order), the `Ctx->Callees` map (`none` when `find` misses),
the `Ctx->Callers` map as its entry list, block CFG edges, and per-site
attributes used by `addToVerbose`. -/
structure DbgLoc where
  dir : String
  file : String
  line : Nat

structure SliceProg where
  allFuncs : List Nat
  funcName : Nat → String
  funcBlocks : Nat → List Nat
  blockParent : Nat → Nat
  blockSites : Nat → List Nat
  siteCallees : Nat → Option (List Nat)
  callers : List (Nat × List Nat)
  siteBlock : Nat → Nat
  siteDirect : Nat → Option Nat
  siteIntrin : Nat → Bool
  blockPreds : Nat → List Nat
  blockSuccs : Nat → List Nat
  blockInstLocs : Nat → List (Option DbgLoc)

/-- The callees reached through the `Callees` map from the call sites of
F's blocks, flattening the nested loops (for each basic block of F, for
each call instruction in it, for each callee of its `Callees` entry;
sites without an entry are skipped by the `find == end` test). -/
def calleeTargets (P : SliceProg) (F : Nat) : List Nat :=
  ((P.funcBlocks F).flatMap P.blockSites).flatMap
    (fun s =>
      match P.siteCallees s with
      | some l => l
      | none => [])

/-- `Slicing::forwardSlicingFunctionWithDepth` (Slicing.cc:259-281):
insert F into `visited`, return at depth 0, otherwise recurse with
depth-1 on every callee of every call site of every block of F.  The
visited-set early-return in the source is commented out, so the
recursion is bounded only by the depth — which also makes the function
total by structural recursion on the depth. -/
def forwardSlicingFunctionWithDepth (P : SliceProg) : Nat → Nat → Finset Nat → Finset Nat
  | F, 0, visited => insert F visited
  | F, d + 1, visited =>
    (calleeTargets P F).foldl
      (fun v c => forwardSlicingFunctionWithDepth P c d v) (insert F visited)

/-- The functions reachable from F within `d` call hops over `Callees`
edges, including F itself: the claim's description of the visited-set
growth, stated independently of the traversal. -/
def reachWithin (P : SliceProg) : Nat → Nat → Finset Nat
  | 0, F => {F}
  | d + 1, F =>
    insert F ((calleeTargets P F).foldr (fun c acc => reachWithin P d c ∪ acc) ∅)

theorem forwardSlicingFunctionWithDepth_eq (P : SliceProg) (F : Nat) (d : Nat)
    (visited : Finset Nat) :
    forwardSlicingFunctionWithDepth P F d visited = visited ∪ reachWithin P d F := by
  induction d generalizing F visited with
  | zero =>
    simp [forwardSlicingFunctionWithDepth, reachWithin, Finset.insert_eq,
      Finset.union_comm]
  | succ d ih =>
    have haux : ∀ (cs : List Nat) (a : Finset Nat),
        cs.foldl (fun v c => forwardSlicingFunctionWithDepth P c d v) a
          = a ∪ cs.foldr (fun c acc => reachWithin P d c ∪ acc) ∅ := by
      intro cs
      induction cs with
      | nil => intro a; simp
      | cons c cs2 ih2 =>
        intro a
        simp only [List.foldl_cons, List.foldr_cons]
        rw [ih2, ih, Finset.union_assoc]
    simp only [forwardSlicingFunctionWithDepth, reachWithin]
    rw [haux, Finset.insert_union, Finset.union_insert]

/-- C10: `forwardSlicingFunctionWithDepth(F, depth, visited)` terminates
for every depth (the Lean model is total by structural recursion on the
depth, mirroring the C++ recursion which strictly decreases `depth`),
and on return `visited` has grown by exactly F together with every
function reachable from F within `depth` call hops over `Callees`
edges — also in cyclic call graphs. -/
theorem claim_C10 (P : SliceProg) (F : Nat) (d : Nat) (visited : Finset Nat) :
    forwardSlicingFunctionWithDepth P F d visited = visited ∪ reachWithin P d F :=
  forwardSlicingFunctionWithDepth_eq P F d visited

/-- The mutable state of the `Slicing` object: `visitedF_`,
`verboseF_`, `visitedBB_`, `fVisitedF_`, `verboseBB_`,
`slicedFuncCnt_`. -/
structure SliceState where
  visitedF : Finset Nat
  verboseF : Finset Nat
  visitedBB : Finset Nat
  fVisitedF : Finset Nat
  verboseBB : Finset Nat
  slicedFuncCnt : Nat

/-- The innermost loop of `forwardSlicingFunction` (Slicing.cc:314-319):
for one callee, if it is new in `fVisitedF_`, push all its basic blocks
onto the BFS queue. -/
def fsfCallee (P : SliceProg) (acc : List Nat × SliceState) (c : Nat) :
    List Nat × SliceState :=
  if c ∈ acc.2.fVisitedF then acc
  else (acc.1 ++ P.funcBlocks c, {acc.2 with fVisitedF := insert c acc.2.fVisitedF})

/-- One call instruction of the visited block (Slicing.cc:307-321):
look up its `Callees` entry (skip when `find` misses) and process every
callee. -/
def fsfSite (P : SliceProg) (acc : List Nat × SliceState) (s : Nat) :
    List Nat × SliceState :=
  match P.siteCallees s with
  | none => acc
  | some cs => cs.foldl (fsfCallee P) acc

/-- Processing of one newly visited block of `forwardSlicingFunction`:
iterate over its call instructions. -/
def fsfBlock (P : SliceProg) (b : Nat) (acc : List Nat × SliceState) :
    List Nat × SliceState :=
  (P.blockSites b).foldl (fsfSite P) acc

/-- The BFS loop of `Slicing::forwardSlicingFunction`
(Slicing.cc:295-324), with explicit fuel: pop the front block, insert it
into `verboseBB_` unconditionally, and if it is new in the local
`visited` set process its call instructions, pushing the bodies of
newly discovered callees. -/
def fsfLoop (P : SliceProg) : Nat → List Nat → Finset Nat → SliceState → SliceState
  | 0, _, _, st => st
  | _ + 1, [], _, st => st
  | fuel + 1, current :: queue, visited, st =>
    if current ∈ visited then
      fsfLoop P fuel queue visited {st with verboseBB := insert current st.verboseBB}
    else
      fsfLoop P fuel
        (fsfBlock P current (queue, {st with verboseBB := insert current st.verboseBB})).1
        (insert current visited)
        (fsfBlock P current (queue, {st with verboseBB := insert current st.verboseBB})).2

/-- Upper bound on the remaining BFS iterations: queue length plus the
total block count of program functions not yet in `fVisitedF_`.  Every
iteration pops one block, and blocks are only pushed together with a
fresh `fVisitedF_` insertion, so this strictly decreases each
iteration. -/
def fsfPot (P : SliceProg) (q : List Nat) (fV : Finset Nat) : Nat :=
  q.length + (P.allFuncs.toFinset \ fV).sum (fun g => (P.funcBlocks g).length)

/-- `Slicing::forwardSlicingFunction` (Slicing.cc:284-335): BFS over the
blocks of F and of every transitively callable function.  The fuel
`fsfPot + 1` exceeds the number of iterations the loop can perform, so
the loop always drains its queue (for programs whose callees are
program functions). -/
def forwardSlicingFunction (P : SliceProg) (F : Nat) (st : SliceState) : SliceState :=
  fsfLoop P (fsfPot P (P.funcBlocks F) st.fVisitedF + 1) (P.funcBlocks F) ∅ st

theorem fsfCallee_spec (P : SliceProg) (acc : List Nat × SliceState) (c : Nat) :
    ((fsfCallee P acc c).2.visitedF = acc.2.visitedF ∧
      (fsfCallee P acc c).2.verboseF = acc.2.verboseF ∧
      (fsfCallee P acc c).2.visitedBB = acc.2.visitedBB ∧
      (fsfCallee P acc c).2.verboseBB = acc.2.verboseBB ∧
      (fsfCallee P acc c).2.slicedFuncCnt = acc.2.slicedFuncCnt) ∧
      acc.2.fVisitedF ⊆ (fsfCallee P acc c).2.fVisitedF ∧
      (∀ x ∈ acc.1, x ∈ (fsfCallee P acc c).1) ∧
      c ∈ (fsfCallee P acc c).2.fVisitedF ∧
      (∀ d, d ∈ (fsfCallee P acc c).2.fVisitedF →
        d ∈ acc.2.fVisitedF ∨ ∀ x ∈ P.funcBlocks d, x ∈ (fsfCallee P acc c).1) := by
  unfold fsfCallee
  by_cases h : c ∈ acc.2.fVisitedF
  · rw [if_pos h]
    exact ⟨⟨rfl, rfl, rfl, rfl, rfl⟩, Finset.Subset.refl _, fun x hx => hx, h,
      fun d hd => Or.inl hd⟩
  · rw [if_neg h]
    refine ⟨⟨rfl, rfl, rfl, rfl, rfl⟩, Finset.subset_insert _ _,
      fun x hx => List.mem_append_left _ hx, Finset.mem_insert_self _ _, ?_⟩
    intro d hd
    rcases Finset.mem_insert.mp hd with rfl | hd
    · exact Or.inr (fun x hx => List.mem_append_right _ hx)
    · exact Or.inl hd

theorem fsfCallee_pot (P : SliceProg) (acc : List Nat × SliceState) (c : Nat)
    (hc : c ∈ P.allFuncs) :
    (fsfCallee P acc c).1.length
        + ((P.allFuncs.toFinset \ (fsfCallee P acc c).2.fVisitedF).sum
            fun g => (P.funcBlocks g).length)
      = acc.1.length
        + ((P.allFuncs.toFinset \ acc.2.fVisitedF).sum
            fun g => (P.funcBlocks g).length) := by
  unfold fsfCallee
  by_cases h : c ∈ acc.2.fVisitedF
  · simp [h]
  · simp only [h, if_false]
    have hset : P.allFuncs.toFinset \ insert c acc.2.fVisitedF
        = (P.allFuncs.toFinset \ acc.2.fVisitedF).erase c := by
      ext x
      simp only [Finset.mem_sdiff, Finset.mem_erase, Finset.mem_insert]
      tauto
    have hcmem : c ∈ P.allFuncs.toFinset \ acc.2.fVisitedF := by
      simp [Finset.mem_sdiff, List.mem_toFinset, hc, h]
    have hsum := Finset.sum_erase_add (P.allFuncs.toFinset \ acc.2.fVisitedF)
      (fun g => (P.funcBlocks g).length) hcmem
    simp only [List.length_append, hset, ← hsum]
    omega

/-- What one queue/state transformation step of the BFS inner loops
preserves: all state fields except `fVisitedF` unchanged, `fVisitedF`
and the queue grow, and any new `fVisitedF` member has all its blocks
in the resulting queue. -/
def FsfStep (P : SliceProg) (acc acc2 : List Nat × SliceState) : Prop :=
  (acc2.2.visitedF = acc.2.visitedF ∧ acc2.2.verboseF = acc.2.verboseF ∧
    acc2.2.visitedBB = acc.2.visitedBB ∧ acc2.2.verboseBB = acc.2.verboseBB ∧
    acc2.2.slicedFuncCnt = acc.2.slicedFuncCnt) ∧
    acc.2.fVisitedF ⊆ acc2.2.fVisitedF ∧
    (∀ x ∈ acc.1, x ∈ acc2.1) ∧
    (∀ d ∈ acc2.2.fVisitedF, d ∈ acc.2.fVisitedF ∨ ∀ x ∈ P.funcBlocks d, x ∈ acc2.1)

theorem fsfStep_refl (P : SliceProg) (acc : List Nat × SliceState) : FsfStep P acc acc :=
  ⟨⟨rfl, rfl, rfl, rfl, rfl⟩, Finset.Subset.refl _, fun _ hx => hx, fun _ hd => Or.inl hd⟩

theorem fsfStep_trans (P : SliceProg) {a b c : List Nat × SliceState}
    (h1 : FsfStep P a b) (h2 : FsfStep P b c) : FsfStep P a c := by
  refine ⟨⟨h2.1.1.trans h1.1.1, h2.1.2.1.trans h1.1.2.1, h2.1.2.2.1.trans h1.1.2.2.1,
    h2.1.2.2.2.1.trans h1.1.2.2.2.1, h2.1.2.2.2.2.trans h1.1.2.2.2.2⟩,
    h1.2.1.trans h2.2.1, fun x hx => h2.2.2.1 x (h1.2.2.1 x hx), ?_⟩
  intro d hd
  rcases h2.2.2.2 d hd with hd2 | hblocks
  · rcases h1.2.2.2 d hd2 with hd1 | hblocks
    · exact Or.inl hd1
    · exact Or.inr (fun x hx => h2.2.2.1 x (hblocks x hx))
  · exact Or.inr hblocks

theorem fsfCallee_step (P : SliceProg) (acc : List Nat × SliceState) (c : Nat) :
    FsfStep P acc (fsfCallee P acc c) :=
  let h := fsfCallee_spec P acc c
  ⟨h.1, h.2.1, h.2.2.1, h.2.2.2.2⟩

theorem foldl_fsfCallee_step (P : SliceProg) (cs : List Nat) :
    ∀ acc, FsfStep P acc (cs.foldl (fsfCallee P) acc) := by
  induction cs with
  | nil => intro acc; exact fsfStep_refl P acc
  | cons c t ih =>
    intro acc
    exact fsfStep_trans P (fsfCallee_step P acc c) (ih (fsfCallee P acc c))

theorem fsfSite_step (P : SliceProg) (acc : List Nat × SliceState) (s : Nat) :
    FsfStep P acc (fsfSite P acc s) := by
  unfold fsfSite
  rcases P.siteCallees s with _ | cs
  · exact fsfStep_refl P acc
  · exact foldl_fsfCallee_step P cs acc

theorem foldl_fsfSite_step (P : SliceProg) (ss : List Nat) :
    ∀ acc, FsfStep P acc (ss.foldl (fsfSite P) acc) := by
  induction ss with
  | nil => intro acc; exact fsfStep_refl P acc
  | cons s t ih =>
    intro acc
    exact fsfStep_trans P (fsfSite_step P acc s) (ih (fsfSite P acc s))

theorem fsfBlock_step (P : SliceProg) (b : Nat) (acc : List Nat × SliceState) :
    FsfStep P acc (fsfBlock P b acc) :=
  foldl_fsfSite_step P (P.blockSites b) acc

theorem foldl_fsfCallee_mem (P : SliceProg) (cs : List Nat) :
    ∀ acc, ∀ c ∈ cs, c ∈ (cs.foldl (fsfCallee P) acc).2.fVisitedF := by
  induction cs with
  | nil => intro acc c hc; cases hc
  | cons d t ih =>
    intro acc c hc
    rcases List.mem_cons.mp hc with rfl | hc
    · simp only [List.foldl_cons]
      exact (foldl_fsfCallee_step P t (fsfCallee P acc c)).2.1
        (fsfCallee_spec P acc c).2.2.2.1
    · exact ih (fsfCallee P acc d) c hc

theorem fsfSite_mem (P : SliceProg) (acc : List Nat × SliceState) (s : Nat)
    (cs : List Nat) (hcs : P.siteCallees s = some cs) :
    ∀ c ∈ cs, c ∈ (fsfSite P acc s).2.fVisitedF := by
  unfold fsfSite
  rw [hcs]
  exact foldl_fsfCallee_mem P cs acc

theorem fsfBlock_mem (P : SliceProg) (b : Nat) (acc : List Nat × SliceState) :
    ∀ s ∈ P.blockSites b, ∀ cs, P.siteCallees s = some cs →
      ∀ c ∈ cs, c ∈ (fsfBlock P b acc).2.fVisitedF := by
  unfold fsfBlock
  generalize P.blockSites b = ss
  induction ss generalizing acc with
  | nil => intro s hs; cases hs
  | cons s0 t ih =>
    intro s hs cs hcs c hc
    rcases List.mem_cons.mp hs with rfl | hs
    · simp only [List.foldl_cons]
      exact (foldl_fsfSite_step P t (fsfSite P acc s)).2.1
        (fsfSite_mem P acc s cs hcs c hc)
    · exact ih (fsfSite P acc s0) s hs cs hcs c hc

theorem foldl_fsfCallee_pot (P : SliceProg) (cs : List Nat)
    (hwfcs : ∀ c ∈ cs, c ∈ P.allFuncs) :
    ∀ acc, (cs.foldl (fsfCallee P) acc).1.length
        + ((P.allFuncs.toFinset \ (cs.foldl (fsfCallee P) acc).2.fVisitedF).sum
            fun g => (P.funcBlocks g).length)
      = acc.1.length
        + ((P.allFuncs.toFinset \ acc.2.fVisitedF).sum
            fun g => (P.funcBlocks g).length) := by
  induction cs with
  | nil => intro acc; rfl
  | cons c t ih =>
    intro acc
    simp only [List.foldl_cons]
    rw [ih (fun d hd => hwfcs d (List.mem_cons_of_mem c hd)) (fsfCallee P acc c)]
    exact fsfCallee_pot P acc c (hwfcs c (List.mem_cons_self c t))

theorem fsfSite_pot (P : SliceProg)
    (hwf : ∀ s cs, P.siteCallees s = some cs → ∀ c ∈ cs, c ∈ P.allFuncs)
    (acc : List Nat × SliceState) (s : Nat) :
    (fsfSite P acc s).1.length
        + ((P.allFuncs.toFinset \ (fsfSite P acc s).2.fVisitedF).sum
            fun g => (P.funcBlocks g).length)
      = acc.1.length
        + ((P.allFuncs.toFinset \ acc.2.fVisitedF).sum
            fun g => (P.funcBlocks g).length) := by
  unfold fsfSite
  rcases hcs : P.siteCallees s with _ | cs
  · rfl
  · exact foldl_fsfCallee_pot P cs (hwf s cs hcs) acc

theorem fsfBlock_pot (P : SliceProg)
    (hwf : ∀ s cs, P.siteCallees s = some cs → ∀ c ∈ cs, c ∈ P.allFuncs)
    (b : Nat) (acc : List Nat × SliceState) :
    (fsfBlock P b acc).1.length
        + ((P.allFuncs.toFinset \ (fsfBlock P b acc).2.fVisitedF).sum
            fun g => (P.funcBlocks g).length)
      = acc.1.length
        + ((P.allFuncs.toFinset \ acc.2.fVisitedF).sum
            fun g => (P.funcBlocks g).length) := by
  unfold fsfBlock
  generalize P.blockSites b = ss
  induction ss generalizing acc with
  | nil => rfl
  | cons s t ih =>
    simp only [List.foldl_cons]
    rw [ih (fsfSite P acc s)]
    exact fsfSite_pot P hwf acc s

/-- The BFS loop leaves `visitedF_`, `verboseF_`, `visitedBB_` and
`slicedFuncCnt_` untouched and only grows `verboseBB_` and
`fVisitedF_`, for any fuel. -/
theorem fsfLoop_frame (P : SliceProg) :
    ∀ (fuel : Nat) (q : List Nat) (vis : Finset Nat) (st : SliceState),
      ((fsfLoop P fuel q vis st).visitedF = st.visitedF ∧
        (fsfLoop P fuel q vis st).verboseF = st.verboseF ∧
        (fsfLoop P fuel q vis st).visitedBB = st.visitedBB ∧
        (fsfLoop P fuel q vis st).slicedFuncCnt = st.slicedFuncCnt) ∧
      st.verboseBB ⊆ (fsfLoop P fuel q vis st).verboseBB ∧
      st.fVisitedF ⊆ (fsfLoop P fuel q vis st).fVisitedF := by
  intro fuel
  induction fuel with
  | zero =>
    intro q vis st
    exact ⟨⟨rfl, rfl, rfl, rfl⟩, Finset.Subset.refl _, Finset.Subset.refl _⟩
  | succ fuel ih =>
    intro q vis st
    rcases q with _ | ⟨current, queue⟩
    · exact ⟨⟨rfl, rfl, rfl, rfl⟩, Finset.Subset.refl _, Finset.Subset.refl _⟩
    · simp only [fsfLoop]
      by_cases h : current ∈ vis
      · rw [if_pos h]
        have h2 := ih queue vis {st with verboseBB := insert current st.verboseBB}
        exact ⟨h2.1, (Finset.subset_insert _ _).trans h2.2.1, h2.2.2⟩
      · rw [if_neg h]
        have hstep := fsfBlock_step P current
          (queue, {st with verboseBB := insert current st.verboseBB})
        have h2 := ih (fsfBlock P current
            (queue, {st with verboseBB := insert current st.verboseBB})).1
          (insert current vis)
          (fsfBlock P current
            (queue, {st with verboseBB := insert current st.verboseBB})).2
        refine ⟨⟨h2.1.1.trans hstep.1.1, h2.1.2.1.trans hstep.1.2.1,
          h2.1.2.2.1.trans hstep.1.2.2.1, h2.1.2.2.2.trans hstep.1.2.2.2.2⟩, ?_, ?_⟩
        · refine (Finset.subset_insert current st.verboseBB).trans ?_
          have hbb : ({st with verboseBB := insert current st.verboseBB}).verboseBB
              ⊆ (fsfBlock P current
                (queue, {st with verboseBB := insert current st.verboseBB})).2.verboseBB := by
            rw [hstep.1.2.2.2.1]
          exact hbb.trans h2.2.1
        · exact hstep.2.1.trans h2.2.2

/-- The drain specification of the BFS loop: with fuel exceeding
`fsfPot`, every queued block reaches `verboseBB_`, every new
`fVisitedF_` member has all of its blocks in `verboseBB_`, and every
callee of every call site of every queued block reaches
`fVisitedF_`. -/
theorem fsfLoop_spec (P : SliceProg)
    (hwf : ∀ s cs, P.siteCallees s = some cs → ∀ c ∈ cs, c ∈ P.allFuncs) :
    ∀ (fuel : Nat) (q : List Nat) (vis : Finset Nat) (st : SliceState),
      fsfPot P q st.fVisitedF < fuel →
      (∀ b ∈ vis, ∀ s ∈ P.blockSites b, ∀ cs, P.siteCallees s = some cs →
        ∀ c ∈ cs, c ∈ st.fVisitedF) →
      (∀ b ∈ q, b ∈ (fsfLoop P fuel q vis st).verboseBB) ∧
      (∀ c ∈ (fsfLoop P fuel q vis st).fVisitedF, c ∈ st.fVisitedF ∨
        ∀ x ∈ P.funcBlocks c, x ∈ (fsfLoop P fuel q vis st).verboseBB) ∧
      (∀ b ∈ q, ∀ s ∈ P.blockSites b, ∀ cs, P.siteCallees s = some cs →
        ∀ c ∈ cs, c ∈ (fsfLoop P fuel q vis st).fVisitedF) := by
  intro fuel
  induction fuel with
  | zero =>
    intro q vis st hpot
    exact absurd hpot (Nat.not_lt_zero _)
  | succ fuel ih =>
    intro q vis st hpot hvis
    rcases q with _ | ⟨current, queue⟩
    · refine ⟨fun b hb => absurd hb (List.not_mem_nil b), ?_,
        fun b hb => absurd hb (List.not_mem_nil b)⟩
      intro c hc
      exact Or.inl hc
    · simp only [fsfLoop]
      by_cases h : current ∈ vis
      · rw [if_pos h]
        have hpot2 : fsfPot P queue
            ({st with verboseBB := insert current st.verboseBB}).fVisitedF < fuel := by
          simp only [fsfPot, List.length_cons] at hpot ⊢
          omega
        have hvis2 : ∀ b ∈ vis, ∀ s ∈ P.blockSites b, ∀ cs,
            P.siteCallees s = some cs → ∀ c ∈ cs,
              c ∈ ({st with verboseBB := insert current st.verboseBB}).fVisitedF := hvis
        have h2 := ih queue vis {st with verboseBB := insert current st.verboseBB}
          hpot2 hvis2
        have hfr := fsfLoop_frame P fuel queue vis
          {st with verboseBB := insert current st.verboseBB}
        refine ⟨?_, ?_, ?_⟩
        · intro b hb
          rcases List.mem_cons.mp hb with rfl | hb
          · exact hfr.2.1 (Finset.mem_insert_self _ _)
          · exact h2.1 b hb
        · intro c hc
          rcases h2.2.1 c hc with hc2 | hc2
          · exact Or.inl hc2
          · exact Or.inr hc2
        · intro b hb s hs cs hcs c hc
          rcases List.mem_cons.mp hb with rfl | hb
          · exact hfr.2.2 (hvis b h s hs cs hcs c hc)
          · exact h2.2.2 b hb s hs cs hcs c hc
      · rw [if_neg h]
        have hstep := fsfBlock_step P current
          (queue, {st with verboseBB := insert current st.verboseBB})
        have hpot2 : fsfPot P (fsfBlock P current
              (queue, {st with verboseBB := insert current st.verboseBB})).1
            (fsfBlock P current
              (queue, {st with verboseBB := insert current st.verboseBB})).2.fVisitedF
            < fuel := by
          have hbp := fsfBlock_pot P hwf current
            (queue, {st with verboseBB := insert current st.verboseBB})
          dsimp only at hbp
          simp only [fsfPot, List.length_cons] at hpot ⊢
          omega
        have hvis2 : ∀ b ∈ insert current vis, ∀ s ∈ P.blockSites b, ∀ cs,
            P.siteCallees s = some cs → ∀ c ∈ cs,
              c ∈ (fsfBlock P current
                (queue, {st with verboseBB := insert current st.verboseBB})).2.fVisitedF := by
          intro b hb s hs cs hcs c hc
          rcases Finset.mem_insert.mp hb with rfl | hb
          · exact fsfBlock_mem P b _ s hs cs hcs c hc
          · exact hstep.2.1 (hvis b hb s hs cs hcs c hc)
        have h2 := ih _ (insert current vis) _ hpot2 hvis2
        have hfr := fsfLoop_frame P fuel
          (fsfBlock P current
            (queue, {st with verboseBB := insert current st.verboseBB})).1
          (insert current vis)
          (fsfBlock P current
            (queue, {st with verboseBB := insert current st.verboseBB})).2
        refine ⟨?_, ?_, ?_⟩
        · intro b hb
          rcases List.mem_cons.mp hb with rfl | hb
          · refine hfr.2.1 ?_
            have hbb := hstep.1.2.2.2.1
            rw [hbb]
            exact Finset.mem_insert_self _ _
          · exact h2.1 b (hstep.2.2.1 b hb)
        · intro c hc
          rcases h2.2.1 c hc with hc2 | hc2
          · rcases hstep.2.2.2 c hc2 with hc3 | hc3
            · exact Or.inl hc3
            · exact Or.inr (fun x hx => h2.1 x (hc3 x hx))
          · exact Or.inr hc2
        · intro b hb s hs cs hcs c hc
          rcases List.mem_cons.mp hb with rfl | hb
          · exact hfr.2.2 (fsfBlock_mem P b _ s hs cs hcs c hc)
          · exact h2.2.2 b (hstep.2.2.1 b hb) s hs cs hcs c hc

theorem forwardSlicingFunction_spec (P : SliceProg)
    (hwf : ∀ s cs, P.siteCallees s = some cs → ∀ c ∈ cs, c ∈ P.allFuncs)
    (F : Nat) (st : SliceState) :
    ((forwardSlicingFunction P F st).visitedF = st.visitedF ∧
      (forwardSlicingFunction P F st).verboseF = st.verboseF ∧
      (forwardSlicingFunction P F st).visitedBB = st.visitedBB ∧
      (forwardSlicingFunction P F st).slicedFuncCnt = st.slicedFuncCnt) ∧
    st.verboseBB ⊆ (forwardSlicingFunction P F st).verboseBB ∧
    st.fVisitedF ⊆ (forwardSlicingFunction P F st).fVisitedF ∧
    (∀ b ∈ P.funcBlocks F, b ∈ (forwardSlicingFunction P F st).verboseBB) ∧
    (∀ c ∈ (forwardSlicingFunction P F st).fVisitedF, c ∈ st.fVisitedF ∨
      ∀ x ∈ P.funcBlocks c, x ∈ (forwardSlicingFunction P F st).verboseBB) ∧
    (∀ b ∈ P.funcBlocks F, ∀ s ∈ P.blockSites b, ∀ cs, P.siteCallees s = some cs →
      ∀ c ∈ cs, c ∈ (forwardSlicingFunction P F st).fVisitedF) := by
  have hfr := fsfLoop_frame P (fsfPot P (P.funcBlocks F) st.fVisitedF + 1)
    (P.funcBlocks F) ∅ st
  have hsp := fsfLoop_spec P hwf (fsfPot P (P.funcBlocks F) st.fVisitedF + 1)
    (P.funcBlocks F) ∅ st (Nat.lt_succ_self _)
    (fun b hb => absurd hb (Finset.not_mem_empty b))
  exact ⟨hfr.1, hfr.2.1, hfr.2.2, hsp.1, hsp.2.1, hsp.2.2⟩

/-- The invariant relating `fVisitedF_` and `verboseBB_` that
`forwardSlicingFunction` establishes and preserves: every function ever
inserted into `fVisitedF_` had all its blocks pushed, and pushed blocks
always reach `verboseBB_`. -/
def SliceInv (P : SliceProg) (st : SliceState) : Prop :=
  ∀ c ∈ st.fVisitedF, ∀ x ∈ P.funcBlocks c, x ∈ st.verboseBB

theorem fsfFold_spec (P : SliceProg)
    (hwf : ∀ s cs, P.siteCallees s = some cs → ∀ c ∈ cs, c ∈ P.allFuncs)
    (L : List Nat) :
    ∀ st, SliceInv P st →
      (((L.foldl (fun s F => forwardSlicingFunction P F s) st).visitedF = st.visitedF ∧
        (L.foldl (fun s F => forwardSlicingFunction P F s) st).verboseF = st.verboseF ∧
        (L.foldl (fun s F => forwardSlicingFunction P F s) st).visitedBB = st.visitedBB ∧
        (L.foldl (fun s F => forwardSlicingFunction P F s) st).slicedFuncCnt
          = st.slicedFuncCnt) ∧
      st.verboseBB ⊆ (L.foldl (fun s F => forwardSlicingFunction P F s) st).verboseBB ∧
      st.fVisitedF ⊆ (L.foldl (fun s F => forwardSlicingFunction P F s) st).fVisitedF) ∧
      SliceInv P (L.foldl (fun s F => forwardSlicingFunction P F s) st) ∧
      (∀ F ∈ L, ∀ b ∈ P.funcBlocks F,
        b ∈ (L.foldl (fun s F => forwardSlicingFunction P F s) st).verboseBB) ∧
      (∀ F ∈ L, ∀ b ∈ P.funcBlocks F, ∀ s ∈ P.blockSites b, ∀ cs,
        P.siteCallees s = some cs → ∀ c ∈ cs,
          c ∈ (L.foldl (fun s F => forwardSlicingFunction P F s) st).fVisitedF) := by
  induction L with
  | nil =>
    intro st hinv
    exact ⟨⟨⟨rfl, rfl, rfl, rfl⟩, Finset.Subset.refl _, Finset.Subset.refl _⟩, hinv,
      fun F hF => absurd hF (List.not_mem_nil F),
      fun F hF => absurd hF (List.not_mem_nil F)⟩
  | cons F0 t ih =>
    intro st hinv
    simp only [List.foldl_cons]
    have hsp := forwardSlicingFunction_spec P hwf F0 st
    have hinv2 : SliceInv P (forwardSlicingFunction P F0 st) := by
      intro c hc x hx
      rcases hsp.2.2.2.2.1 c hc with hc2 | hc2
      · exact hsp.2.1 (hinv c hc2 x hx)
      · exact hc2 x hx
    have h2 := ih (forwardSlicingFunction P F0 st) hinv2
    refine ⟨⟨⟨h2.1.1.1.trans hsp.1.1, h2.1.1.2.1.trans hsp.1.2.1,
      h2.1.1.2.2.1.trans hsp.1.2.2.1, h2.1.1.2.2.2.trans hsp.1.2.2.2⟩,
      hsp.2.1.trans h2.1.2.1, hsp.2.2.1.trans h2.1.2.2⟩, h2.2.1, ?_, ?_⟩
    · intro F hF b hb
      rcases List.mem_cons.mp hF with rfl | hF
      · exact h2.1.2.1 (hsp.2.2.2.1 b hb)
      · exact h2.2.2.1 F hF b hb
    · intro F hF b hb s hs cs hcs c hc
      rcases List.mem_cons.mp hF with rfl | hF
      · exact h2.1.2.2 (hsp.2.2.2.2.2 b hb s hs cs hcs c hc)
      · exact h2.2.2.2 F hF b hb s hs cs hcs c hc

theorem foldr_reach_zero_mem (P : SliceProg) (cs : List Nat) (x : Nat) :
    (x ∈ cs.foldr (fun c acc => reachWithin P 0 c ∪ acc) ∅) ↔ x ∈ cs := by
  induction cs with
  | nil => simp
  | cons c t ih =>
    simp only [List.foldr_cons, Finset.mem_union, ih, List.mem_cons]
    simp [reachWithin]

theorem mem_reachWithin_one (P : SliceProg) (F x : Nat) :
    x ∈ reachWithin P 1 F ↔ x = F ∨ x ∈ calleeTargets P F := by
  rw [show reachWithin P 1 F
      = insert F ((calleeTargets P F).foldr (fun c acc => reachWithin P 0 c ∪ acc) ∅)
    from rfl]
  rw [Finset.mem_insert, foldr_reach_zero_mem]

theorem foldl_fswd_one_mem (P : SliceProg) (L : List Nat) :
    ∀ (acc : Finset Nat) (x : Nat),
      (x ∈ L.foldl (fun a F => forwardSlicingFunctionWithDepth P F 1 a) acc) ↔
        x ∈ acc ∨ ∃ F ∈ L, x ∈ reachWithin P 1 F := by
  induction L with
  | nil => intro acc x; simp
  | cons F0 t ih =>
    intro acc x
    rw [List.foldl_cons, ih, forwardSlicingFunctionWithDepth_eq, Finset.mem_union]
    constructor
    · rintro ((h | h) | ⟨F, hF, hx⟩)
      · exact Or.inl h
      · exact Or.inr ⟨F0, List.mem_cons_self _ _, h⟩
      · exact Or.inr ⟨F, List.mem_cons_of_mem _ hF, hx⟩
    · rintro (h | ⟨F, hF, hx⟩)
      · exact Or.inl (Or.inl h)
      · rcases List.mem_cons.mp hF with rfl | hF
        · exact Or.inl (Or.inr hx)
        · exact Or.inr ⟨F, hF, hx⟩

theorem mem_calleeTargets (P : SliceProg) (F x : Nat) :
    x ∈ calleeTargets P F ↔
      ∃ b ∈ P.funcBlocks F, ∃ s ∈ P.blockSites b, ∃ cs,
        P.siteCallees s = some cs ∧ x ∈ cs := by
  simp only [calleeTargets, List.mem_flatMap]
  constructor
  · rintro ⟨s, ⟨b, hb, hsb⟩, hx⟩
    rcases hcs : P.siteCallees s with _ | cs
    · rw [hcs] at hx; cases hx
    · rw [hcs] at hx
      exact ⟨b, hb, s, hsb, cs, hcs, hx⟩
  · rintro ⟨b, hb, s, hs, cs, hcs, hx⟩
    exact ⟨s, ⟨b, hb, hs⟩, by rw [hcs]; exact hx⟩

/-- `std::string::find(sub) != npos`: `sub` occurs as a contiguous
substring. -/
def listInfix (pat : List Char) : List Char → Bool
  | [] => pat.isEmpty
  | c :: rest => pat.isPrefixOf (c :: rest) || listInfix pat rest

def strContains (s sub : String) : Bool :=
  listInfix sub.data s.data

/-- One `block:<dir>/<file>:<line>:100` output line of `Slicing::dump`
(Slicing.cc:437-443), with `normalizePath` applied when the file name
contains `..`. -/
def renderLoc (loc : DbgLoc) : String :=
  "block:" ++ loc.dir ++ "/"
    ++ (if strContains loc.file ".." then normalizePath loc.file else loc.file)
    ++ ":" ++ toString loc.line ++ ":100" ++ "\n"

/-- The inner instruction loop of the `visitedBB_` pass of `dump`
(Slicing.cc:432-447): the line is produced by the first instruction of
the block carrying a debug location with a nonzero line, if any. -/
def blockLine (P : SliceProg) (b : Nat) : Option String :=
  (((P.blockInstLocs b).filterMap id).find? (fun loc => loc.line != 0)).map renderLoc

/-- One `<name>\n` entry of the `.func` outputs. -/
def nameLine (P : SliceProg) (F : Nat) : String :=
  P.funcName F ++ "\n"

/-- The contents of the five output buffers of `Slicing::dump`:
`uniqueOutputs` (`.slice`), `uniqueOutputsVerbose` (`.slice.verbose`),
`uniqueOutputsFunc` (`.func`), `uniqueOutputsFuncVerbose`
(`.func.verbose`) and the `.func.blacklist` lines. -/
structure DumpResult where
  sliceLines : Finset String
  sliceVerboseLines : Finset String
  funcLines : Finset String
  funcVerboseLines : Finset String
  blacklistLines : List String

/-- The first loop of `dump` (Slicing.cc:392-394): forward-slice every
function of `verboseF_`.  The `std::set` is iterated in its (sorted)
element order. -/
def dumpForwarded (P : SliceProg) (st : SliceState) : SliceState :=
  (st.verboseF.sort (· ≤ ·)).foldl (fun s F => forwardSlicingFunction P F s) st

/-- The `visitedFuncsWithDepth` collection of `dump`
(Slicing.cc:396-401): depth-1 expansion of every `verboseF_` member. -/
def dumpWithDepth (P : SliceProg) (st1 : SliceState) : Finset Nat :=
  (st1.verboseF.sort (· ≤ ·)).foldl
    (fun acc F => forwardSlicingFunctionWithDepth P F 1 acc) ∅

/-- The `visitedBB_` pass of `dump` (Slicing.cc:408-448) restricted to
the two `.slice` buffers: each produced `block:` line is inserted into
`uniqueOutputs` and `uniqueOutputsVerbose` together.  (The `func:` lines
are dead code: `printFunc` is the constant `false` at Slicing.cc:414.) -/
def dumpSlicePair (P : SliceProg) (st1 : SliceState) : Finset String × Finset String :=
  (st1.visitedBB.sort (· ≤ ·)).foldl
    (fun acc b =>
      match blockLine P b with
      | some l => (insert l acc.1, insert l acc.2)
      | none => acc) (∅, ∅)

/-- `Slicing::dump` (Slicing.cc:365-493), modelled as the contents of
its output buffers plus the state after its forward-slicing preamble:
`.func` collects the names of `verboseF_`, of the depth-1 expansion,
and of the parents of `visitedBB_`; `.func.verbose` collects the
parents of `visitedBB_` and of `verboseBB_`; `.func.blacklist` keeps
every `fullFunc_` line not in `.func.verbose`.  File I/O and the
`std::cout` statistics are not modelled; set insertions are modelled by
`Finset.image`/union. -/
def dump (P : SliceProg) (fullFunc : List String) (st : SliceState) :
    DumpResult × SliceState :=
  let st1 := dumpForwarded P st
  (⟨(dumpSlicePair P st1).1, (dumpSlicePair P st1).2,
    (st1.verboseF.image (nameLine P) ∪ (dumpWithDepth P st1).image (nameLine P))
      ∪ st1.visitedBB.image (fun b => nameLine P (P.blockParent b)),
    st1.visitedBB.image (fun b => nameLine P (P.blockParent b))
      ∪ st1.verboseBB.image (fun b => nameLine P (P.blockParent b)),
    fullFunc.filter (fun n => decide (n ∉
      (st1.visitedBB.image (fun b => nameLine P (P.blockParent b))
        ∪ st1.verboseBB.image (fun b => nameLine P (P.blockParent b)))))⟩, st1)

theorem dumpSlicePair_eq (P : SliceProg) (st1 : SliceState) :
    (dumpSlicePair P st1).1 = (dumpSlicePair P st1).2 := by
  unfold dumpSlicePair
  generalize st1.visitedBB.sort (· ≤ ·) = bs
  have h : ∀ (acc : Finset String × Finset String), acc.1 = acc.2 →
      (bs.foldl (fun acc b =>
        match blockLine P b with
        | some l => (insert l acc.1, insert l acc.2)
        | none => acc) acc).1
      = (bs.foldl (fun acc b =>
        match blockLine P b with
        | some l => (insert l acc.1, insert l acc.2)
        | none => acc) acc).2 := by
    induction bs with
    | nil => intro acc h; exact h
    | cons b t ih =>
      intro acc h
      simp only [List.foldl_cons]
      rcases blockLine P b with _ | l
      · exact ih acc h
      · exact ih _ (by rw [h])
  exact h (∅, ∅) rfl

/-- C6 (amended): every line written to `.slice` also appears in
`.slice.verbose` (the source inserts each `block:` line into both
buffers), and every function name written to `.func` also appears in
`.func.verbose` unless it names a function without basic blocks — a
declaration reached through `verboseF_` or its depth-1 expansion
contributes its name to `.func` only.  The hypotheses state
well-formedness of the input (callees are program functions; a block's
parent is its owning function) and the `fVisitedF_`/`verboseBB_`
invariant, which every state actually reached by the slicer satisfies
(it is established by `forwardSlicingFunction` and by `clear`). -/
theorem claim_C6 (P : SliceProg) (fullFunc : List String) (st : SliceState)
    (hwf : ∀ s cs, P.siteCallees s = some cs → ∀ c ∈ cs, c ∈ P.allFuncs)
    (hpar : ∀ F, ∀ b ∈ P.funcBlocks F, P.blockParent b = F)
    (hinv : SliceInv P st) :
    (∀ l ∈ (dump P fullFunc st).1.sliceLines,
      l ∈ (dump P fullFunc st).1.sliceVerboseLines) ∧
    (∀ n ∈ (dump P fullFunc st).1.funcLines,
      n ∈ (dump P fullFunc st).1.funcVerboseLines ∨
        ∃ F, n = nameLine P F ∧ P.funcBlocks F = []) := by
  have hfold := fsfFold_spec P hwf (st.verboseF.sort (· ≤ ·)) st hinv
  constructor
  · intro l hl
    have he := dumpSlicePair_eq P (dumpForwarded P st)
    show l ∈ (dumpSlicePair P (dumpForwarded P st)).2
    rw [← he]
    exact hl
  · intro n hn
    have hvF : (dumpForwarded P st).verboseF = st.verboseF := hfold.1.1.2.1
    have hinv1 : SliceInv P (dumpForwarded P st) := hfold.2.1
    have hblocks := hfold.2.2.1
    have hcall := hfold.2.2.2
    have hmain : ∀ x, x ∈ st.verboseF →
        (nameLine P x ∈ (dump P fullFunc st).1.funcVerboseLines ∨
          ∃ F, nameLine P x = nameLine P F ∧ P.funcBlocks F = []) := by
      intro x hxF
      rcases hb : P.funcBlocks x with _ | ⟨b0, bs⟩
      · exact Or.inr ⟨x, rfl, hb⟩
      · have hxL : x ∈ st.verboseF.sort (· ≤ ·) := (Finset.mem_sort _).mpr hxF
        have hb0 : b0 ∈ (dumpForwarded P st).verboseBB :=
          hblocks x hxL b0 (by rw [hb]; exact List.mem_cons_self _ _)
        have hp : P.blockParent b0 = x :=
          hpar x b0 (by rw [hb]; exact List.mem_cons_self _ _)
        refine Or.inl (Finset.mem_union_right _ ?_)
        exact Finset.mem_image.mpr ⟨b0, hb0, by rw [hp]⟩
    have hvisited : ∀ x, x ∈ (dumpForwarded P st).fVisitedF →
        (nameLine P x ∈ (dump P fullFunc st).1.funcVerboseLines ∨
          ∃ F, nameLine P x = nameLine P F ∧ P.funcBlocks F = []) := by
      intro x hxV
      rcases hb : P.funcBlocks x with _ | ⟨b0, bs⟩
      · exact Or.inr ⟨x, rfl, hb⟩
      · have hb0 : b0 ∈ (dumpForwarded P st).verboseBB :=
          hinv1 x hxV b0 (by rw [hb]; exact List.mem_cons_self _ _)
        have hp : P.blockParent b0 = x :=
          hpar x b0 (by rw [hb]; exact List.mem_cons_self _ _)
        refine Or.inl (Finset.mem_union_right _ ?_)
        exact Finset.mem_image.mpr ⟨b0, hb0, by rw [hp]⟩
    have hn2 : n ∈ ((dumpForwarded P st).verboseF.image (nameLine P)
        ∪ (dumpWithDepth P (dumpForwarded P st)).image (nameLine P))
        ∪ (dumpForwarded P st).visitedBB.image
            (fun b => nameLine P (P.blockParent b)) := hn
    rcases Finset.mem_union.mp hn2 with hA | hB
    · rcases Finset.mem_union.mp hA with hA1 | hA2
      · rcases Finset.mem_image.mp hA1 with ⟨x, hx, rfl⟩
        exact hmain x (hvF ▸ hx)
      · rcases Finset.mem_image.mp hA2 with ⟨x, hx, rfl⟩
        have hx2 := (foldl_fswd_one_mem P ((dumpForwarded P st).verboseF.sort (· ≤ ·))
          ∅ x).mp hx
        rcases hx2 with hx2 | ⟨F, hFL, hreach⟩
        · exact absurd hx2 (Finset.not_mem_empty x)
        · have hFL2 : F ∈ st.verboseF.sort (· ≤ ·) := by
            rw [← hvF]
            exact hFL
          have hFv : F ∈ st.verboseF := by
            have := (Finset.mem_sort (α := Nat) (· ≤ ·)).mp hFL2
            exact this
          rcases (mem_reachWithin_one P F x).mp hreach with rfl | hct
          · exact hmain x hFv
          · rcases (mem_calleeTargets P F x).mp hct with ⟨b, hb, s, hs, cs, hcs, hxcs⟩
            exact hvisited x (hcall F hFL2 b hb s hs cs hcs x hxcs)
    · exact Or.inl (Finset.mem_union_left _ hB)

def c6prog : SliceProg :=
  { allFuncs := [5]
    funcName := fun _ => "D"
    funcBlocks := fun _ => []
    blockParent := fun _ => 0
    blockSites := fun _ => []
    siteCallees := fun _ => none
    callers := []
    siteBlock := fun _ => 0
    siteDirect := fun _ => none
    siteIntrin := fun _ => false
    blockPreds := fun _ => []
    blockSuccs := fun _ => []
    blockInstLocs := fun _ => [] }

def c6st : SliceState := ⟨∅, {5}, ∅, ∅, ∅, 1⟩

/-- Witness for C6: on a concrete dump state the amended claim holds. -/
theorem claim_C6_witness :
    (∀ l ∈ (dump c6prog [] c6st).1.sliceLines,
      l ∈ (dump c6prog [] c6st).1.sliceVerboseLines) ∧
    (∀ n ∈ (dump c6prog [] c6st).1.funcLines,
      n ∈ (dump c6prog [] c6st).1.funcVerboseLines ∨
        ∃ F, n = nameLine c6prog F ∧ c6prog.funcBlocks F = []) :=
  claim_C6 c6prog [] c6st
    (fun _ _ h => by cases h)
    (fun _ b hb => by cases hb)
    (fun c hc => absurd hc (Finset.not_mem_empty c))

theorem c6_dumpForwarded : dumpForwarded c6prog c6st = c6st := by
  unfold dumpForwarded
  rw [show c6st.verboseF = {5} from rfl, Finset.sort_singleton]
  rfl

theorem c6_dumpWithDepth : dumpWithDepth c6prog c6st = {5} := by
  unfold dumpWithDepth
  rw [show c6st.verboseF = {5} from rfl, Finset.sort_singleton]
  rfl

/-- Counterexample to C6 as stated: the body-less function `D` sits in
`verboseF_`; its name is written to `.func` (Slicing.cc:399) but it
parents no basic block, so it never reaches `.func.verbose`. -/
theorem claim_C6_counterexample :
    "D\n" ∈ (dump c6prog [] c6st).1.funcLines ∧
      "D\n" ∉ (dump c6prog [] c6st).1.funcVerboseLines := by
  have h1 : (dump c6prog [] c6st).1.funcLines =
      (c6st.verboseF.image (nameLine c6prog)
        ∪ (dumpWithDepth c6prog c6st).image (nameLine c6prog))
        ∪ c6st.visitedBB.image (fun b => nameLine c6prog (c6prog.blockParent b)) := by
    show ((dumpForwarded c6prog c6st).verboseF.image (nameLine c6prog)
        ∪ (dumpWithDepth c6prog (dumpForwarded c6prog c6st)).image (nameLine c6prog))
        ∪ (dumpForwarded c6prog c6st).visitedBB.image
            (fun b => nameLine c6prog (c6prog.blockParent b)) = _
    rw [c6_dumpForwarded]
  have h2 : (dump c6prog [] c6st).1.funcVerboseLines =
      c6st.visitedBB.image (fun b => nameLine c6prog (c6prog.blockParent b))
        ∪ c6st.verboseBB.image (fun b => nameLine c6prog (c6prog.blockParent b)) := by
    show (dumpForwarded c6prog c6st).visitedBB.image
          (fun b => nameLine c6prog (c6prog.blockParent b))
        ∪ (dumpForwarded c6prog c6st).verboseBB.image
            (fun b => nameLine c6prog (c6prog.blockParent b)) = _
    rw [c6_dumpForwarded]
  constructor
  · rw [h1, c6_dumpWithDepth]
    refine Finset.mem_union_left _ (Finset.mem_union_right _ ?_)
    exact Finset.mem_image.mpr ⟨5, Finset.mem_singleton_self 5, rfl⟩
  · rw [h2]
    simp [c6st]

/-- `Ctx_->Callers[F]` as read by the slicer: look the function up in
the map's entry list; a missing key reads as the empty call-site set. -/
def callersLookup (P : SliceProg) (F : Nat) : List Nat :=
  match P.callers.find? (fun e => e.1 == F) with
  | some e => e.2
  | none => []

/-- All basic blocks of the program, used only for fuel bounds. -/
def allBlocks (P : SliceProg) : List Nat :=
  P.allFuncs.flatMap P.funcBlocks

/-- The DFS loop of `Slicing::intraCanReach` (Slicing.cc:48-68): stack
discipline (`std::stack`: successors are pushed in order and popped in
reverse), a visited set, and success exactly when `dst` is popped. -/
def intraCanReachLoop (P : SliceProg) (dst : Nat) :
    Nat → List Nat → Finset Nat → Bool
  | 0, _, _ => false
  | _ + 1, [], _ => false
  | fuel + 1, current :: toVisit, visited =>
    if current ∈ visited then intraCanReachLoop P dst fuel toVisit visited
    else if current = dst then true
    else intraCanReachLoop P dst fuel
      ((P.blockSuccs current).reverse ++ toVisit) (insert current visited)

/-- Fuel bound for `intraCanReach`: each iteration pops one entry, and
pushes happen only on a fresh visit of a program block, so the total
number of pushes is bounded by the total successor count. -/
def icrFuel (P : SliceProg) : Nat :=
  1 + (allBlocks P).length + ((allBlocks P).map (fun b => (P.blockSuccs b).length)).sum

/-- `Slicing::intraCanReach` (Slicing.cc:48-68). -/
def intraCanReach (P : SliceProg) (src dst : Nat) : Bool :=
  intraCanReachLoop P dst (icrFuel P) [src] ∅

/-- `Slicing::addToVerbose` (Slicing.cc:71-127): skip if F is already in
`verboseF_`, otherwise insert it, and for every call site CB of
`Callers[F]`, for every call instruction CB2 of the function enclosing
CB that is not an intrinsic call and whose block can reach CB's block
by CFG successors, insert the directly called function of CB2 (if CB2
has one) into `verboseF_`. -/
def addToVerbose (P : SliceProg) (F : Nat) (st : SliceState) : SliceState :=
  if F ∈ st.verboseF then st
  else
    (callersLookup P F).foldl
      (fun st1 CB =>
        (P.funcBlocks (P.blockParent (P.siteBlock CB))).foldl
          (fun st2 BB =>
            (P.blockSites BB).foldl
              (fun st3 CB2 =>
                if P.siteIntrin CB2 then st3
                else if intraCanReach P (P.siteBlock CB2) (P.siteBlock CB) then
                  match P.siteDirect CB2 with
                  | some otherF => {st3 with verboseF := insert otherF st3.verboseF}
                  | none => st3
                else st3)
              st2)
          st1)
      {st with verboseF := insert F st.verboseF}

/-- The prefix of the predecessor list that the `lastPred` self-loop
guard of `backtracking` (Slicing.cc:211-223) actually processes: stop
right before the first immediately repeated predecessor. -/
def takeUntilRepeat : List Nat → List Nat
  | [] => []
  | [x] => [x]
  | x :: y :: rest => if y = x then [x] else x :: takeUntilRepeat (y :: rest)

/-- The DFS worklist of `Slicing::backtracking` (Slicing.cc:196-225):
pop the top block; if it is new, insert it into `visitedBB_` and push
its not-yet-visited predecessors (up to the self-loop guard, in stack
order). -/
def backtrackLoop (P : SliceProg) : Nat → List Nat → SliceState → SliceState
  | 0, _, st => st
  | _ + 1, [], st => st
  | fuel + 1, current :: toVisit, st =>
    if current ∈ st.visitedBB then backtrackLoop P fuel toVisit st
    else
      backtrackLoop P fuel
        (((takeUntilRepeat (P.blockPreds current)).filter
            (fun pr => decide (pr ∉ insert current st.visitedBB))).reverse ++ toVisit)
        {st with visitedBB := insert current st.visitedBB}

/-- Fuel bound for `backtrackLoop`, by the same counting as
`icrFuel`. -/
def btFuel (P : SliceProg) : Nat :=
  1 + (allBlocks P).length + ((allBlocks P).map (fun b => (P.blockPreds b).length)).sum

/-- The entry bookkeeping of `sliceFunction` (Slicing.cc:133-143):
mark F visited, mark all its blocks visited, run `addToVerbose`. -/
def sliceEnter (P : SliceProg) (F : Nat) (st : SliceState) : SliceState :=
  addToVerbose P F
    {st with visitedF := insert F st.visitedF,
             visitedBB := st.visitedBB ∪ (P.funcBlocks F).toFinset}

/-- The `matchingCBS` collection of `sliceFunction` (Slicing.cc:146-152):
the `Callers` entries whose key has the same name as F. -/
def matchingEntries (P : SliceProg) (F : Nat) : List (Nat × List Nat) :=
  P.callers.filter (fun e => P.funcName e.1 == P.funcName F)

/-- The `toProcess` queue of `sliceFunction` (Slicing.cc:160-174): the
blocks of the matching call sites that are not yet in `visitedBB_`
(checked against the state after the entry bookkeeping). -/
def sliceQueue (P : SliceProg) (F : Nat) (st3 : SliceState) : List Nat :=
  (((matchingEntries P F).flatMap (fun e => e.2)).map (fun CB => P.siteBlock CB)).filter
    (fun BB => decide (BB ∉ st3.visitedBB))

/-- The `slicedFuncCnt_++` of Slicing.cc:183-189. -/
def bumpCnt (st : SliceState) : SliceState :=
  {st with slicedFuncCnt := st.slicedFuncCnt + 1}

/-- `Slicing::sliceFunction` (Slicing.cc:130-190), with fuel bounding
the `backtracking`/`sliceFunction` mutual recursion depth (each
productive nesting level inserts a new function into `visitedF_`, so
`allFuncs.length + 2` levels are never exhausted on well-formed
programs): return if F is already visited; mark F and its blocks
visited and run `addToVerbose`; return early if no `Callers` entry
shares F's name; otherwise backtrack every queued block (each
backtracking run ends by re-entering `sliceFunction` on the block's
enclosing function), and bump `slicedFuncCnt_` once when some matching
entry was nonempty. -/
def sliceFunction (P : SliceProg) : Nat → Nat → SliceState → SliceState
  | 0, _, st => st
  | fuel + 1, F, st =>
    if F ∈ st.visitedF then st
    else if (matchingEntries P F).isEmpty then sliceEnter P F st
    else if (matchingEntries P F).any (fun e => !e.2.isEmpty) then
      bumpCnt ((sliceQueue P F (sliceEnter P F st)).foldl
        (fun stq BB =>
          sliceFunction P fuel (P.blockParent BB)
            (backtrackLoop P (btFuel P) [BB] stq))
        (sliceEnter P F st))
    else
      (sliceQueue P F (sliceEnter P F st)).foldl
        (fun stq BB =>
          sliceFunction P fuel (P.blockParent BB)
            (backtrackLoop P (btFuel P) [BB] stq))
        (sliceEnter P F st)

/-- `Slicing::backtracking` (Slicing.cc:193-230): the DFS worklist,
then `sliceFunction` on the block's enclosing function —
`sliceFunction`'s queue processing inlines exactly this body. -/
def backtracking (P : SliceProg) (fuel : Nat) (BB : Nat) (st : SliceState) : SliceState :=
  sliceFunction P fuel (P.blockParent BB) (backtrackLoop P (btFuel P) [BB] st)

/-- Entry point used by `main`: `sliceFunction` with its fuel budget. -/
def sliceFunctionTop (P : SliceProg) (F : Nat) (st : SliceState) : SliceState :=
  sliceFunction P (P.allFuncs.length + 2) F st

/-- `Slicing::forwardSlicingFunctionStub` (Slicing.cc:233-257): look the
function up by plain symbol name across the modules in load order;
missing stubs are reported and skipped. -/
def forwardSlicingFunctionStub (P : SliceProg) (fname : String) (st : SliceState) :
    SliceState :=
  match P.allFuncs.find? (fun f => P.funcName f == fname) with
  | some F => forwardSlicingFunction P F st
  | none => st

/-- `Slicing::findTargetByFunctionName` (Slicing.cc:541-566): first
function matching by exact name, or — demangling shim — whose name
contains the query and contains `_Z`.  The module/file filter is
commented out in the source; the check sits inside the basic-block
loop, so a body-less function is never returned. -/
def findTargetByFunctionName (P : SliceProg) (fname : String) : Option Nat :=
  P.allFuncs.find? (fun f =>
    !(P.funcBlocks f).isEmpty &&
      (P.funcName f == fname ||
        (strContains (P.funcName f) fname && strContains (P.funcName f) "_Z")))

/-- One iteration of the multi-target loop of `main`
(KAMain.cc:300-337): resolve the pair's function, then backward-slice
it, forward-slice it, and forward-slice the three LibFuzzer stubs.  The
`Sl.dump(...)` and `Sl.clear()` calls between pairs are commented out
in the source (KAMain.cc:334-335); a single dump labelled `merged`
follows the loop. -/
def processPair (P : SliceProg) (pair : String × String) (st : SliceState) : SliceState :=
  match findTargetByFunctionName P pair.2 with
  | none => st
  | some targetFunc =>
    forwardSlicingFunctionStub P "LLVMFuzzerRunDriver"
      (forwardSlicingFunctionStub P "LLVMFuzzerTestOneInput"
        (forwardSlicingFunctionStub P "LLVMFuzzerInitialize"
          (forwardSlicingFunction P targetFunc
            (sliceFunctionTop P targetFunc st))))

/-- The batch loop of `main` over the parsed `<file> <func>` pairs
(KAMain.cc:300-337). -/
def multiTargetLoop (P : SliceProg) (targets : List (String × String))
    (st : SliceState) : SliceState :=
  targets.foldl (fun st t => processPair P t st) st

/-- `Slicing::clear` (Slicing.cc:774-782): reset the five sets and set
`slicedFuncCnt_` to 1. -/
def clear (_ : SliceState) : SliceState :=
  { visitedF := ∅, verboseF := ∅, visitedBB := ∅, fVisitedF := ∅, verboseBB := ∅,
    slicedFuncCnt := 1 }

/-- Componentwise growth of the slicer state: no field is ever reset by
the slicing operations, they only add. -/
def SliceLE (a b : SliceState) : Prop :=
  a.visitedF ⊆ b.visitedF ∧ a.verboseF ⊆ b.verboseF ∧ a.visitedBB ⊆ b.visitedBB ∧
    a.fVisitedF ⊆ b.fVisitedF ∧ a.verboseBB ⊆ b.verboseBB ∧
    a.slicedFuncCnt ≤ b.slicedFuncCnt

theorem sliceLE_refl (a : SliceState) : SliceLE a a :=
  ⟨Finset.Subset.refl _, Finset.Subset.refl _, Finset.Subset.refl _,
    Finset.Subset.refl _, Finset.Subset.refl _, Nat.le_refl _⟩

theorem sliceLE_trans {a b c : SliceState} (h1 : SliceLE a b) (h2 : SliceLE b c) :
    SliceLE a c :=
  ⟨h1.1.trans h2.1, h1.2.1.trans h2.2.1, h1.2.2.1.trans h2.2.2.1,
    h1.2.2.2.1.trans h2.2.2.2.1, h1.2.2.2.2.1.trans h2.2.2.2.2.1,
    h1.2.2.2.2.2.trans h2.2.2.2.2.2⟩

theorem foldl_sliceLE {α : Type} (f : SliceState → α → SliceState)
    (h : ∀ st x, SliceLE st (f st x)) :
    ∀ (l : List α) (st : SliceState), SliceLE st (l.foldl f st) := by
  intro l
  induction l with
  | nil => intro st; exact sliceLE_refl st
  | cons x t ih =>
    intro st
    exact sliceLE_trans (h st x) (ih (f st x))

theorem forwardSlicingFunction_le (P : SliceProg) (F : Nat) (st : SliceState) :
    SliceLE st (forwardSlicingFunction P F st) := by
  unfold forwardSlicingFunction
  have hfr := fsfLoop_frame P (fsfPot P (P.funcBlocks F) st.fVisitedF + 1)
    (P.funcBlocks F) ∅ st
  refine ⟨?_, ?_, ?_, hfr.2.2, hfr.2.1, ?_⟩
  · rw [hfr.1.1]
  · rw [hfr.1.2.1]
  · rw [hfr.1.2.2.1]
  · rw [hfr.1.2.2.2]

theorem addToVerbose_le (P : SliceProg) (F : Nat) (st : SliceState) :
    SliceLE st (addToVerbose P F st) := by
  unfold addToVerbose
  by_cases h : F ∈ st.verboseF
  · rw [if_pos h]
    exact sliceLE_refl st
  · rw [if_neg h]
    have hstep : SliceLE st {st with verboseF := insert F st.verboseF} :=
      ⟨Finset.Subset.refl _, Finset.subset_insert _ _, Finset.Subset.refl _,
        Finset.Subset.refl _, Finset.Subset.refl _, Nat.le_refl _⟩
    refine sliceLE_trans hstep (foldl_sliceLE _ ?_ _ _)
    intro st1 CB
    refine foldl_sliceLE _ ?_ _ _
    intro st2 BB
    refine foldl_sliceLE _ ?_ _ _
    intro st3 CB2
    by_cases h1 : P.siteIntrin CB2 = true
    · rw [if_pos h1]
      exact sliceLE_refl _
    · rw [if_neg h1]
      by_cases h2 : intraCanReach P (P.siteBlock CB2) (P.siteBlock CB) = true
      · rw [if_pos h2]
        rcases P.siteDirect CB2 with _ | oF
        · exact sliceLE_refl _
        · exact ⟨Finset.Subset.refl _, Finset.subset_insert _ _, Finset.Subset.refl _,
            Finset.Subset.refl _, Finset.Subset.refl _, Nat.le_refl _⟩
      · rw [if_neg h2]
        exact sliceLE_refl _

theorem backtrackLoop_le (P : SliceProg) :
    ∀ (fuel : Nat) (q : List Nat) (st : SliceState),
      SliceLE st (backtrackLoop P fuel q st) := by
  intro fuel
  induction fuel with
  | zero => intro q st; exact sliceLE_refl st
  | succ fuel ih =>
    intro q st
    rcases q with _ | ⟨current, toVisit⟩
    · exact sliceLE_refl st
    · simp only [backtrackLoop]
      by_cases h : current ∈ st.visitedBB
      · rw [if_pos h]
        exact ih toVisit st
      · rw [if_neg h]
        refine sliceLE_trans ?_ (ih _ _)
        exact ⟨Finset.Subset.refl _, Finset.Subset.refl _, Finset.subset_insert _ _,
          Finset.Subset.refl _, Finset.Subset.refl _, Nat.le_refl _⟩

theorem sliceEnter_le (P : SliceProg) (F : Nat) (st : SliceState) :
    SliceLE st (sliceEnter P F st) := by
  unfold sliceEnter
  refine sliceLE_trans ?_ (addToVerbose_le P F _)
  exact ⟨Finset.subset_insert _ _, Finset.Subset.refl _, Finset.subset_union_left,
    Finset.Subset.refl _, Finset.Subset.refl _, Nat.le_refl _⟩

theorem sliceFunction_le (P : SliceProg) :
    ∀ (fuel F : Nat) (st : SliceState), SliceLE st (sliceFunction P fuel F st) := by
  intro fuel
  induction fuel with
  | zero => intro F st; exact sliceLE_refl st
  | succ fuel ih =>
    intro F st
    simp only [sliceFunction]
    by_cases h : F ∈ st.visitedF
    · rw [if_pos h]
      exact sliceLE_refl st
    · rw [if_neg h]
      have hfold : SliceLE (sliceEnter P F st)
          ((sliceQueue P F (sliceEnter P F st)).foldl
            (fun stq BB =>
              sliceFunction P fuel (P.blockParent BB)
                (backtrackLoop P (btFuel P) [BB] stq))
            (sliceEnter P F st)) := by
        refine foldl_sliceLE _ ?_ _ _
        intro stq BB
        exact sliceLE_trans (backtrackLoop_le P (btFuel P) [BB] stq)
          (ih (P.blockParent BB) _)
      by_cases hm : (matchingEntries P F).isEmpty = true
      · rw [if_pos hm]
        exact sliceEnter_le P F st
      · rw [if_neg hm]
        by_cases hc : (matchingEntries P F).any (fun e => !e.2.isEmpty) = true
        · rw [if_pos hc]
          refine sliceLE_trans (sliceLE_trans (sliceEnter_le P F st) hfold) ?_
          exact ⟨Finset.Subset.refl _, Finset.Subset.refl _, Finset.Subset.refl _,
            Finset.Subset.refl _, Finset.Subset.refl _, Nat.le_succ _⟩
        · rw [if_neg hc]
          exact sliceLE_trans (sliceEnter_le P F st) hfold

theorem forwardSlicingFunctionStub_le (P : SliceProg) (fname : String) (st : SliceState) :
    SliceLE st (forwardSlicingFunctionStub P fname st) := by
  unfold forwardSlicingFunctionStub
  rcases P.allFuncs.find? (fun f => P.funcName f == fname) with _ | F
  · exact sliceLE_refl st
  · exact forwardSlicingFunction_le P F st

theorem processPair_le (P : SliceProg) (pair : String × String) (st : SliceState) :
    SliceLE st (processPair P pair st) := by
  unfold processPair
  rcases findTargetByFunctionName P pair.2 with _ | F
  · exact sliceLE_refl st
  · show SliceLE st
      (forwardSlicingFunctionStub P "LLVMFuzzerRunDriver"
        (forwardSlicingFunctionStub P "LLVMFuzzerTestOneInput"
          (forwardSlicingFunctionStub P "LLVMFuzzerInitialize"
            (forwardSlicingFunction P F (sliceFunctionTop P F st)))))
    refine sliceLE_trans (sliceFunction_le P (P.allFuncs.length + 2) F st) ?_
    refine sliceLE_trans (forwardSlicingFunction_le P F _) ?_
    refine sliceLE_trans (forwardSlicingFunctionStub_le P "LLVMFuzzerInitialize" _) ?_
    refine sliceLE_trans (forwardSlicingFunctionStub_le P "LLVMFuzzerTestOneInput" _) ?_
    exact forwardSlicingFunctionStub_le P "LLVMFuzzerRunDriver" _

/-- C7 (amended): `Slicing::clear` does reset the per-query state
(`slicedFuncCnt_` to 1), but in batch mode the loop never invokes it
between consecutive pairs — the `Sl.dump`/`Sl.clear` calls at
KAMain.cc:334-335 are commented out.  Each pair is processed from the
accumulated state of the previous pairs (the loop literally threads the
state through `processPair`), and the state only ever grows across the
loop. -/
theorem claim_C7 (P : SliceProg) (targets : List (String × String)) (st : SliceState)
    (t : String × String) (ts : List (String × String)) :
    ((clear st).visitedF = ∅ ∧ (clear st).verboseF = ∅ ∧ (clear st).visitedBB = ∅ ∧
      (clear st).fVisitedF = ∅ ∧ (clear st).verboseBB = ∅ ∧
      (clear st).slicedFuncCnt = 1) ∧
    multiTargetLoop P (t :: ts) st = multiTargetLoop P ts (processPair P t st) ∧
    SliceLE st (multiTargetLoop P targets st) := by
  refine ⟨⟨rfl, rfl, rfl, rfl, rfl, rfl⟩, rfl, ?_⟩
  exact foldl_sliceLE _ (fun st2 t2 => processPair_le P t2 st2) targets st

def c7prog : SliceProg :=
  { allFuncs := [1, 2]
    funcName := fun f => if f = 1 then "f1" else "f2"
    funcBlocks := fun f => if f = 1 then [10] else if f = 2 then [20] else []
    blockParent := fun b => if b = 10 then 1 else 2
    blockSites := fun _ => []
    siteCallees := fun _ => none
    callers := []
    siteBlock := fun _ => 0
    siteDirect := fun _ => none
    siteIntrin := fun _ => false
    blockPreds := fun _ => []
    blockSuccs := fun _ => []
    blockInstLocs := fun _ => [] }

def c7st0 : SliceState := ⟨∅, ∅, ∅, ∅, ∅, 1⟩

/-- Counterexample to C7 as stated: after the two-pair batch run the
state still contains the first pair's sliced function, whereas
processing the second pair from a cleared state — what the claim
asserts happens — does not; no reset occurs between pairs. -/
theorem claim_C7_counterexample :
    1 ∈ (multiTargetLoop c7prog [("a.c", "f1"), ("b.c", "f2")] c7st0).visitedF ∧
      1 ∉ (processPair c7prog ("b.c", "f2")
        (clear (processPair c7prog ("a.c", "f1") c7st0))).visitedF := by
  decide

end Analyzer
